import Mathlib

/-!
# Efficient Subwindow Search: the search state of `td_ssEss.hh`

A shallow embedding of `src/features/global_selfsim_release1.0/td_ssEss.hh`: the class
`sstate` with its constructor, `maxindex`, `islegal` and `less`, and the comparison
`sstate_comparisson`. The header only declares `pyramid_search`; its driver is modelled
from the specification, with the bound evaluator and the quality function as parameters.

* `short low[4]`, `short high[4]` are functions `Fin 4 → Int`; a C++ `short` holds the
  integers of `[-32768, 32767]` (`isShort`), and the results below hold for all integers.
  Before any arithmetic a `short` is promoted to `int`, so `high[i] >> qbits` and the
  difference of two such shifts are computed without wrap-around.
* `x >> qbits` on a signed `int` is the arithmetic shift, `Int.shiftRight`, which is
  `⌊x / 2^qbits⌋`. `qbits` is a natural number (the source passes an `int` that is never
  negative). C++ defines the shift of a 32-bit `int` for counts `0..31` only, and
  `sstate.maxindex` is the method on that range; `sstate.maxindex_masked` is what the
  compiled method computes for any count, the processor reading the count modulo 32.
* `float upper` is the IEEE-754 binary32 bit pattern of the value, a natural number read
  modulo `2^32`; `<` on it is the IEEE comparison (`f32lt`).
* The first part of the file holds every definition, the second part the lemmas and the
  results, grouped by subject.
-/

/-! ## IEEE-754 binary32 comparison -/

/-- Sign bit of a binary32 pattern. -/
def f32sign (b : Nat) : Nat := (b / 2 ^ 31) % 2

/-- Biased exponent field of a binary32 pattern. -/
def f32exp (b : Nat) : Nat := (b / 2 ^ 23) % 256

/-- Fraction field of a binary32 pattern. -/
def f32frac (b : Nat) : Nat := b % 2 ^ 23

/-- A pattern is a NaN when the exponent field is all ones and the fraction is not zero. -/
def f32isNaN (b : Nat) : Bool := f32exp b == 255 && f32frac b != 0

/-- Order key of a pattern that is not a NaN: the magnitude bits, negated when the sign bit
is set. Both zeros have key `0`, the infinities have the extreme keys. -/
def f32key (b : Nat) : Int :=
  if f32sign b = 0 then ((b % 2 ^ 31 : Nat) : Int) else -((b % 2 ^ 31 : Nat) : Int)

/-- The C++ `a < b` on two `float`s: false when either is a NaN, else the order of values. -/
def f32lt (a b : Nat) : Bool :=
  !f32isNaN a && !f32isNaN b && decide (f32key a < f32key b)

/-- The C++ `a == b` on two `float`s: false when either is a NaN, else equality of values
(so `+0 == -0`). -/
def f32eq (a b : Nat) : Bool :=
  !f32isNaN a && !f32isNaN b && decide (f32key a = f32key b)

/-- The pattern of `std::numeric_limits<float>::max()`, `0x7F7FFFFF`. -/
def FLT_MAX : Nat := 2139095039

/-! ## Machine integers -/

/-- The range of a C++ `short`. -/
def isShort (x : Int) : Prop := -32768 ≤ x ∧ x ≤ 32767

/-- Narrowing of an `int` to `short` on assignment: reduction modulo `2^16` into
`[-32768, 32767]`. -/
def toShort (x : Int) : Int := (x + 32768) % 65536 - 32768

/-- The C++ `x << n` on an `int` that does not overflow: multiplication by `2^n`. -/
def shl (x : Int) (n : Nat) : Int := x * 2 ^ n

/-! ## `Box` and `sstate` -/

/-- The `Box` of the source: four coordinates and a score (the pattern of the float it was
computed as). -/
structure Box where
  left : Int
  top : Int
  right : Int
  bottom : Int
  score : Nat
  deriving DecidableEq

/-- The class `sstate`: a set of boxes, as an interval per coordinate, and a cached upper
bound. -/
structure sstate where
  upper : Nat
  low : Fin 4 → Int
  high : Fin 4 → Int

/-- The array `{a, b, c, d}` as a function of the index. -/
def arr4 (a b c d : Int) : Fin 4 → Int
  | 0 => a
  | 1 => b
  | 2 => c
  | 3 => d

/-- The constructor `sstate(int argwidth, int argheight, int qbits)`, "construct as full
search space". (A Lean structure cannot hold a function of its own name, hence
`fullspace`.) -/
def sstate.fullspace (argwidth argheight : Int) (qbits : Nat) : sstate :=
  { upper := FLT_MAX
    low := arr4 0 0 0 0
    high := arr4 (toShort (shl ((argwidth - 1) >>> qbits) qbits))
                 (toShort (shl ((argheight - 1) >>> qbits) qbits))
                 (toShort (shl ((argwidth - 1) >>> qbits) qbits))
                 (toShort (shl ((argheight - 1) >>> qbits) qbits)) }

/-- The local `interval_width` of `maxindex` for coordinate `i`, for a shift count
`qbits` in `0..31`, the counts for which C++ defines `>>` on a 32-bit `int`. -/
def sstate.interval_width (s : sstate) (qbits : Nat) (i : Fin 4) : Int :=
  (s.high i >>> qbits) - (s.low i >>> qbits)

/-- One iteration of the loop of `maxindex`, on the pair `(splitindex, maxwidth)`. -/
def sstate.maxindexStep (s : sstate) (qbits : Nat) (acc : Int × Int) (i : Fin 4) :
    Int × Int :=
  if s.interval_width qbits i > acc.2 then (((i : Nat) : Int), s.interval_width qbits i)
  else acc

/-- The method `maxindex`: the loop runs over `i = 0, 1, 2, 3` from `splitindex = -1`,
`maxwidth = 0`, and `splitindex` is returned. -/
def sstate.maxindex (s : sstate) (qbits : Nat) : Int :=
  (([0, 1, 2, 3] : List (Fin 4)).foldl (s.maxindexStep qbits) (-1, 0)).1

/-- The `x >> count` that the compiled code computes on a 32-bit `int` for any `int`
count: the shift instruction reads the low five bits of the count, so the shift is by
`count % 32`. For the counts `0..31`, for which C++ defines the shift, it is
`x >>> count`. -/
def sar32 (x : Int) (count : Nat) : Int := x >>> (count % 32)

/-- The local `interval_width` of `maxindex` as the compiled code computes it for any
`qbits`. -/
def sstate.interval_width_masked (s : sstate) (qbits : Nat) (i : Fin 4) : Int :=
  sar32 (s.high i) qbits - sar32 (s.low i) qbits

/-- One iteration of the loop of `maxindex` as the compiled code runs it for any `qbits`. -/
def sstate.maxindexStep_masked (s : sstate) (qbits : Nat) (acc : Int × Int) (i : Fin 4) :
    Int × Int :=
  if s.interval_width_masked qbits i > acc.2 then
    (((i : Nat) : Int), s.interval_width_masked qbits i)
  else acc

/-- The method `maxindex` as the compiled code runs it for any `qbits`; it is
`sstate.maxindex` for `qbits` in `0..31`. -/
def sstate.maxindex_masked (s : sstate) (qbits : Nat) : Int :=
  (([0, 1, 2, 3] : List (Fin 4)).foldl (s.maxindexStep_masked qbits) (-1, 0)).1

/-- The method `islegal`. -/
def sstate.islegal (s : sstate) : Bool :=
  decide (s.low 0 ≤ s.high 2) && decide (s.low 1 ≤ s.high 3)

/-- The method `less`. -/
def sstate.less (s other : sstate) : Bool :=
  f32lt s.upper other.upper

/-- The call operator of `sstate_comparisson`. -/
def sstate_comparisson (lhs rhs : sstate) : Bool :=
  lhs.less rhs

/-- The C++ `a <= b` on two `float`s. -/
def f32le (a b : Nat) : Bool :=
  !f32isNaN a && !f32isNaN b && decide (f32key a ≤ f32key b)

/-- The C++ `a >= b` on two `float`s. -/
def f32ge (a b : Nat) : Bool :=
  !f32isNaN a && !f32isNaN b && decide (f32key b ≤ f32key a)

/-- The typedef `sstate_heap`, a `std::priority_queue` over a `std::vector` of States with
the comparison `sstate_comparisson`: the States it holds, as a list. Its top, the State
`pop` removes, is one that the comparison ranks below no other State held. -/
@[reducible] def sstate_heap : Type := List sstate

/-! ## The search driver

The source declares `pyramid_search` but does not hold its body, nor the bound evaluator
and the quality function it calls. The driver below follows section 4.4 of the
specification; the quality function and the bound evaluator are parameters. -/

/-- Modelled from the spec: the failures of section 7 that the driver of `pyramid_search`
(body not in the source) can report. -/
inductive SearchError
  | InvalidInputError
  | InputTooLargeError
  | InternalInvariantViolation
  deriving DecidableEq

/-- Modelled from the spec: the rectangles a State denotes (section 3), for the State with
bounds `lo`, `hi`: `left ∈ [lo 0, hi 0]`, `top ∈ [lo 1, hi 1]`, `right ∈ [lo 2, hi 2]`,
`bottom ∈ [lo 3, hi 3]`. Missing from the source: any function over the members. -/
def holdsRect (lo hi : Fin 4 → Int) (l t r b : Int) : Prop :=
  (lo 0 ≤ l ∧ l ≤ hi 0) ∧ (lo 1 ≤ t ∧ t ≤ hi 1) ∧ (lo 2 ≤ r ∧ r ≤ hi 2) ∧
    (lo 3 ≤ b ∧ b ≤ hi 3)

/-- Modelled from the spec: the candidate rectangles of a `W × H` grid,
`0 ≤ left ≤ right < W` and `0 ≤ top ≤ bottom < H`. -/
def validRect (W H l t r b : Int) : Prop :=
  (0 ≤ l ∧ l ≤ r ∧ r < W) ∧ (0 ≤ t ∧ t ≤ b ∧ b < H)

/-- Modelled from the spec: the index of the split axis, or `none` for the sentinel `-1`
of `maxindex` (section 4.1, `splitAxis`). -/
def splitAxis (s : sstate) (qbits : Nat) : Option (Fin 4) :=
  if s.maxindex qbits = 0 then some 0
  else if s.maxindex qbits = 1 then some 1
  else if s.maxindex qbits = 2 then some 2
  else if s.maxindex qbits = 3 then some 3
  else none

/-- Modelled from the spec: step 3d of section 4.4, missing from the source. The interval
of axis `i` is bisected at its midpoint `m = ⌊(low[i] + high[i]) / 2⌋` into `[low[i], m]`
and `[m + 1, high[i]]`; the other three coordinate pairs are copied. -/
def splitChildren (s : sstate) (i : Fin 4) : sstate × sstate :=
  ({ s with high := Function.update s.high i ((s.low i + s.high i) / 2) },
   { s with low := Function.update s.low i ((s.low i + s.high i) / 2 + 1) })

/-- Modelled from the spec: pop of the priority queue of section 4.3 (the body of the
driver that uses `sstate_heap` is not in the source): a State that `sstate_comparisson`
ranks below no other is removed and returned with the remaining States. -/
def popBest : List sstate → Option (sstate × List sstate)
  | [] => none
  | x :: xs =>
    match popBest xs with
    | none => some (x, [])
    | some (m, rest) =>
      if sstate_comparisson x m then some (m, x :: rest) else some (x, m :: rest)

/-- Modelled from the spec: the children of step 3d that pass `islegal()`, each with the
bound evaluator's value cached in `upper`. -/
def legalChildren (bound : (Fin 4 → Int) → (Fin 4 → Int) → Nat) (s : sstate) (i : Fin 4) :
    List sstate :=
  ([(splitChildren s i).1, (splitChildren s i).2].filter sstate.islegal).map
    (fun c => { c with upper := bound c.low c.high })

/-- Modelled from the spec: the loop of step 3 of section 4.4, missing from the source,
run for at most `fuel` iterations (`none` when they are used up). The Box of a terminal
State is read off `low` and carries the cached `upper` as its score. -/
def searchLoop (bound : (Fin 4 → Int) → (Fin 4 → Int) → Nat) (qbits : Nat) :
    Nat → List sstate → Option (Except SearchError Box)
  | 0, _ => none
  | fuel + 1, queue =>
    match popBest queue with
    | none => some (Except.error SearchError.InternalInvariantViolation)
    | some (s, rest) =>
      match splitAxis s qbits with
      | none => some (Except.ok ⟨s.low 0, s.low 1, s.low 2, s.low 3, s.upper⟩)
      | some i => searchLoop bound qbits fuel (legalChildren bound s i ++ rest)

/-- Modelled from the spec: `pyramid_search` of section 4.4, whose body is missing from the
source. The arguments `SSH`, `DS1`, `DS2`, `weights` are read by the bound evaluator only,
which is the parameter `bound` here (a function of the `low` and `high` of a State);
`verbose_arg` has no effect on the result. -/
def pyramid_search (W H : Int) (bound : (Fin 4 → Int) → (Fin 4 → Int) → Nat) (qbits : Nat)
    (fuel : Nat) : Option (Except SearchError Box) :=
  if W ≤ 0 ∨ H ≤ 0 then some (Except.error SearchError.InvalidInputError)
  else if 32767 < W ∨ 32767 < H then some (Except.error SearchError.InputTooLargeError)
  else
    searchLoop bound qbits fuel
      [{ sstate.fullspace W H qbits with
          upper := bound (sstate.fullspace W H qbits).low (sstate.fullspace W H qbits).high }]

/-- Modelled from the spec: admissibility of the bound evaluator (section 3) against a
quality function on the `W × H` grid: the bound of a State is at least the quality of every
candidate rectangle the State holds. Neither function is in the source. -/
def admissible (W H : Int) (quality : Int → Int → Int → Int → Nat)
    (bound : (Fin 4 → Int) → (Fin 4 → Int) → Nat) : Prop :=
  ∀ (lo hi : Fin 4 → Int) (l t r b : Int), holdsRect lo hi l t r b → validRect W H l t r b →
    f32le (quality l t r b) (bound lo hi) = true

/-- Modelled from the spec: monotonicity of the bound evaluator under refinement
(section 3): a State whose intervals lie within those of another has a bound that is not
larger. -/
def monotoneBound (bound : (Fin 4 → Int) → (Fin 4 → Int) → Nat) : Prop :=
  ∀ lo hi lo2 hi2 : Fin 4 → Int, (∀ i, lo i ≤ lo2 i ∧ hi2 i ≤ hi i) →
    f32le (bound lo2 hi2) (bound lo hi) = true

/-- Exactness of the bound evaluator on singletons: the bound of the State that holds one
candidate rectangle only equals the quality of that rectangle. -/
def exactOnSingletons (W H : Int) (quality : Int → Int → Int → Int → Nat)
    (bound : (Fin 4 → Int) → (Fin 4 → Int) → Nat) : Prop :=
  ∀ lo : Fin 4 → Int, validRect W H (lo 0) (lo 1) (lo 2) (lo 3) →
    f32eq (bound lo lo) (quality (lo 0) (lo 1) (lo 2) (lo 3)) = true

/-- Total length of the four intervals of a State, the measure that every split lowers. -/
def sstate.extent (s : sstate) : Nat :=
  (s.high 0 - s.low 0).toNat + (s.high 1 - s.low 1).toNat + (s.high 2 - s.low 2).toNat +
    (s.high 3 - s.low 3).toNat

/-- Number of loop iterations a queue can still cause: a State of total length `n` counts
`3^n`. -/
def potential (queue : List sstate) : Nat :=
  (queue.map (fun s => 3 ^ s.extent)).sum

/-- What the driver keeps true of each queued State on a `W × H` grid: non-empty intervals
inside the grid, legality, and a cached bound that is the evaluator's. -/
def stateOk (W H : Int) (bound : (Fin 4 → Int) → (Fin 4 → Int) → Nat) (s : sstate) : Prop :=
  (∀ i, s.low i ≤ s.high i) ∧ 0 ≤ s.low 0 ∧ 0 ≤ s.low 1 ∧ s.high 2 < W ∧ s.high 3 < H ∧
    s.islegal = true ∧ s.upper = bound s.low s.high

/-- What the driver keeps true of the queue: every State is `stateOk` and every candidate
rectangle of the grid is held by some queued State. -/
def queueInv (W H : Int) (bound : (Fin 4 → Int) → (Fin 4 → Int) → Nat)
    (queue : List sstate) : Prop :=
  (∀ s ∈ queue, stateOk W H bound s) ∧
    ∀ l t r b : Int, validRect W H l t r b → ∃ s ∈ queue, holdsRect s.low s.high l t r b

/-- A quality function on a 2 × 1 grid: `5.0` for the rectangle `(0,0,1,0)`, `1.0` for
`(0,0,0,0)`, `2.0` otherwise (binary32 patterns). -/
def exQuality (l _t r _b : Int) : Nat :=
  if l = 0 ∧ r = 1 then 0x40A00000 else if l = 0 ∧ r = 0 then 0x3F800000 else 0x40000000

/-- A bound evaluator for `exQuality`: `10.0` for a State that holds the rectangle
`(0,0,0,0)`, else `5.0` (binary32 patterns). -/
def exBound (lo hi : Fin 4 → Int) : Nat :=
  if (lo 0 ≤ 0 ∧ 0 ≤ hi 0) ∧ (lo 1 ≤ 0 ∧ 0 ≤ hi 1) ∧ (lo 2 ≤ 0 ∧ 0 ≤ hi 2) ∧
      (lo 3 ≤ 0 ∧ 0 ≤ hi 3) then 0x41200000 else 0x40A00000

/-- A bound evaluator for `exQuality` on the 2 × 1 grid that is exact on singletons:
`5.0` when the State can hold `left = 0` with `right = 1`, else `2.0` when it can hold
`left = 1`, else `1.0` (binary32 patterns). -/
def exBoundExact (lo hi : Fin 4 → Int) : Nat :=
  if lo 0 ≤ 0 ∧ 1 ≤ hi 2 then 0x40A00000 else if 1 ≤ hi 0 then 0x40000000 else 0x3F800000

/-! ## Lemmas on shifts and on the loop of `maxindex` -/

theorem shr_mono (a b : Int) (n : Nat) (h : a ≤ b) : a >>> n ≤ b >>> n := by
  rw [Int.shiftRight_eq_div_pow, Int.shiftRight_eq_div_pow]
  exact Int.ediv_le_ediv (by positivity) h

theorem shr_zero (a : Int) : a >>> (0 : Nat) = a := by
  rw [Int.shiftRight_eq_div_pow]; simp

/-- The result of the loop of `maxindex`, by cases on the four interval widths. -/
theorem maxindex_spec (s : sstate) (qbits : Nat) :
    (s.maxindex qbits = -1 ∧ s.interval_width qbits 0 ≤ 0 ∧ s.interval_width qbits 1 ≤ 0 ∧
      s.interval_width qbits 2 ≤ 0 ∧ s.interval_width qbits 3 ≤ 0) ∨
    (s.maxindex qbits = 0 ∧ 0 < s.interval_width qbits 0 ∧
      s.interval_width qbits 1 ≤ s.interval_width qbits 0 ∧
      s.interval_width qbits 2 ≤ s.interval_width qbits 0 ∧
      s.interval_width qbits 3 ≤ s.interval_width qbits 0) ∨
    (s.maxindex qbits = 1 ∧ 0 < s.interval_width qbits 1 ∧
      s.interval_width qbits 0 < s.interval_width qbits 1 ∧
      s.interval_width qbits 2 ≤ s.interval_width qbits 1 ∧
      s.interval_width qbits 3 ≤ s.interval_width qbits 1) ∨
    (s.maxindex qbits = 2 ∧ 0 < s.interval_width qbits 2 ∧
      s.interval_width qbits 0 < s.interval_width qbits 2 ∧
      s.interval_width qbits 1 < s.interval_width qbits 2 ∧
      s.interval_width qbits 3 ≤ s.interval_width qbits 2) ∨
    (s.maxindex qbits = 3 ∧ 0 < s.interval_width qbits 3 ∧
      s.interval_width qbits 0 < s.interval_width qbits 3 ∧
      s.interval_width qbits 1 < s.interval_width qbits 3 ∧
      s.interval_width qbits 2 < s.interval_width qbits 3) := by
  simp only [sstate.maxindex, List.foldl, sstate.maxindexStep]
  generalize s.interval_width qbits 0 = e0
  generalize s.interval_width qbits 1 = e1
  generalize s.interval_width qbits 2 = e2
  generalize s.interval_width qbits 3 = e3
  split_ifs <;> simp <;> omega

theorem maxindex_eq_neg_one_iff (s : sstate) (qbits : Nat) :
    s.maxindex qbits = -1 ↔ ∀ j, s.interval_width qbits j ≤ 0 := by
  have h := maxindex_spec s qbits
  constructor
  · intro hm j
    fin_cases j <;> simp only [Fin.zero_eta, Fin.mk_one, Fin.reduceFinMk] <;> omega
  · intro hj
    have h0 := hj 0
    have h1 := hj 1
    have h2 := hj 2
    have h3 := hj 3
    omega

theorem interval_width_nonneg (s : sstate) (qbits : Nat) (j : Fin 4)
    (h : s.low j ≤ s.high j) : 0 ≤ s.interval_width qbits j := by
  have := shr_mono _ _ qbits h
  unfold sstate.interval_width
  omega

theorem maxindex_masked_eq (s : sstate) (qbits : Nat) :
    s.maxindex_masked qbits = s.maxindex (qbits % 32) := rfl

theorem maxindex_masked_of_le (s : sstate) (qbits : Nat) (hq : qbits ≤ 31) :
    s.maxindex_masked qbits = s.maxindex qbits := by
  rw [maxindex_masked_eq, Nat.mod_eq_of_lt (by omega)]

/-! ## The split axis (`maxindex`) -/

/-- C2: whenever `maxindex(qbits)` returns a value `i` other than `-1`, then `0 ≤ i ≤ 3`,
the quantized extent of coordinate `i` is at least that of every coordinate, and it is
strictly larger than that of every coordinate before `i`. -/
theorem maxindex_first_largest_extent (s : sstate) (qbits : Nat) (i : Int)
    (hi : s.maxindex qbits = i) (hne : i ≠ -1) :
    0 ≤ i ∧ i ≤ 3 ∧ ∃ k : Fin 4, ((k : Nat) : Int) = i ∧
      (∀ j : Fin 4, (s.high j >>> qbits) - (s.low j >>> qbits) ≤
        (s.high k >>> qbits) - (s.low k >>> qbits)) ∧
      (∀ j : Fin 4, j < k → (s.high j >>> qbits) - (s.low j >>> qbits) <
        (s.high k >>> qbits) - (s.low k >>> qbits)) := by
  have h := maxindex_spec s qbits
  simp only [sstate.interval_width] at h
  subst hi
  rcases h with h | h | h | h | h
  · omega
  · refine ⟨by omega, by omega, 0, by rw [h.1]; rfl, ?_, ?_⟩
    · intro j; fin_cases j <;> simp <;> omega
    · intro j hj; exact absurd hj (Fin.not_lt_zero j)
  · refine ⟨by omega, by omega, 1, by rw [h.1]; rfl, ?_, ?_⟩
    · intro j; fin_cases j <;> simp <;> omega
    · intro j hj
      fin_cases j <;> first | (simp at hj ⊢; omega) | (simp at hj)
  · refine ⟨by omega, by omega, 2, by rw [h.1]; rfl, ?_, ?_⟩
    · intro j; fin_cases j <;> simp <;> omega
    · intro j hj
      fin_cases j <;> first | (simp at hj ⊢; omega) | (simp at hj)
  · refine ⟨by omega, by omega, 3, by rw [h.1]; rfl, ?_, ?_⟩
    · intro j; fin_cases j <;> simp <;> omega
    · intro j hj
      fin_cases j <;> first | (simp at hj ⊢; omega) | (simp at hj)

theorem maxindex_first_largest_extent_witness :
    (sstate.mk 0 (arr4 0 0 0 0) (arr4 5 9 9 0)).maxindex 0 = 1 ∧ (1 : Int) ≠ -1 ∧
    (0 ≤ (1 : Int) ∧ (1 : Int) ≤ 3 ∧ ∃ k : Fin 4, ((k : Nat) : Int) = 1 ∧
      (∀ j : Fin 4, (arr4 5 9 9 0 j >>> (0 : Nat)) - (arr4 0 0 0 0 j >>> (0 : Nat)) ≤
        (arr4 5 9 9 0 k >>> (0 : Nat)) - (arr4 0 0 0 0 k >>> (0 : Nat))) ∧
      (∀ j : Fin 4, j < k → (arr4 5 9 9 0 j >>> (0 : Nat)) - (arr4 0 0 0 0 j >>> (0 : Nat)) <
        (arr4 5 9 9 0 k >>> (0 : Nat)) - (arr4 0 0 0 0 k >>> (0 : Nat)))) :=
  ⟨by decide, by decide,
    maxindex_first_largest_extent (sstate.mk 0 (arr4 0 0 0 0) (arr4 5 9 9 0)) 0 1
      (by decide) (by decide)⟩

/-- C3 (as stated, refuted): at `qbits = 1` the state `low = {0,0,0,0}`,
`high = {1,0,0,0}` makes `maxindex` return `-1` although `low[0] ≠ high[0]`; and at
`qbits = 0` the state `low = {1,0,0,0}`, `high = {0,0,0,0}` makes it return `-1` although
`low[0] ≠ high[0]`. -/
theorem maxindex_sentinel_iff_equal_counterexample :
    ¬ ((sstate.mk 0 (arr4 0 0 0 0) (arr4 1 0 0 0)).maxindex 1 = -1 ↔
        ∀ i, (sstate.mk 0 (arr4 0 0 0 0) (arr4 1 0 0 0)).low i =
          (sstate.mk 0 (arr4 0 0 0 0) (arr4 1 0 0 0)).high i) ∧
    ¬ ((sstate.mk 0 (arr4 1 0 0 0) (arr4 0 0 0 0)).maxindex 0 = -1 ↔
        ∀ i, (sstate.mk 0 (arr4 1 0 0 0) (arr4 0 0 0 0)).low i =
          (sstate.mk 0 (arr4 1 0 0 0) (arr4 0 0 0 0)).high i) := by
  decide

/-- C3 (amended): for every sstate with `low[i] ≤ high[i]` for all `i`, `maxindex(0)`
returns `-1` if and only if `low[i] == high[i]` for all `i`; and for every `qbits`, if
`low[i] == high[i]` for all `i` then `maxindex(qbits)` returns `-1`. -/
theorem maxindex_sentinel_iff_equal_at_full_resolution (s : sstate)
    (h : ∀ i, s.low i ≤ s.high i) :
    (s.maxindex 0 = -1 ↔ ∀ i, s.low i = s.high i) ∧
    (∀ qbits : Nat, (∀ i, s.low i = s.high i) → s.maxindex qbits = -1) := by
  constructor
  · rw [maxindex_eq_neg_one_iff]
    simp only [sstate.interval_width, shr_zero]
    constructor
    · intro hw i
      have := hw i
      have := h i
      omega
    · intro he i
      have := he i
      omega
  · intro qbits he
    rw [maxindex_eq_neg_one_iff]
    intro j
    simp [sstate.interval_width, he j]

theorem maxindex_sentinel_iff_equal_at_full_resolution_witness :
    (∀ i, (sstate.mk 0 (arr4 3 4 5 6) (arr4 3 4 5 6)).low i ≤
      (sstate.mk 0 (arr4 3 4 5 6) (arr4 3 4 5 6)).high i) ∧
    (((sstate.mk 0 (arr4 3 4 5 6) (arr4 3 4 5 6)).maxindex 0 = -1 ↔
        ∀ i, (sstate.mk 0 (arr4 3 4 5 6) (arr4 3 4 5 6)).low i =
          (sstate.mk 0 (arr4 3 4 5 6) (arr4 3 4 5 6)).high i) ∧
      (∀ qbits : Nat, (∀ i, (sstate.mk 0 (arr4 3 4 5 6) (arr4 3 4 5 6)).low i =
          (sstate.mk 0 (arr4 3 4 5 6) (arr4 3 4 5 6)).high i) →
        (sstate.mk 0 (arr4 3 4 5 6) (arr4 3 4 5 6)).maxindex qbits = -1)) :=
  ⟨by decide, maxindex_sentinel_iff_equal_at_full_resolution
    (sstate.mk 0 (arr4 3 4 5 6) (arr4 3 4 5 6)) (by decide)⟩

/-- C4: for every sstate with `low[i] ≤ high[i]` for all `i`, `maxindex(qbits)` returns
`-1` if and only if all four quantized extents `(high[i] >> qbits) - (low[i] >> qbits)` are
zero; otherwise it returns an index in `0..3`. -/
theorem maxindex_sentinel_iff_extents_zero (s : sstate) (qbits : Nat)
    (h : ∀ i, s.low i ≤ s.high i) :
    (s.maxindex qbits = -1 ↔ ∀ i, (s.high i >>> qbits) - (s.low i >>> qbits) = 0) ∧
    (s.maxindex qbits ≠ -1 → 0 ≤ s.maxindex qbits ∧ s.maxindex qbits ≤ 3) := by
  constructor
  · rw [maxindex_eq_neg_one_iff]
    constructor
    · intro hw i
      have h1 := hw i
      have h2 := interval_width_nonneg s qbits i (h i)
      simp only [sstate.interval_width] at h1 h2
      omega
    · intro he i
      have := he i
      simp only [sstate.interval_width]
      omega
  · intro hne
    have := maxindex_spec s qbits
    omega

theorem maxindex_sentinel_iff_extents_zero_witness :
    (∀ i, (sstate.mk 0 (arr4 4 4 6 7) (arr4 5 5 7 7)).low i ≤
      (sstate.mk 0 (arr4 4 4 6 7) (arr4 5 5 7 7)).high i) ∧
    (((sstate.mk 0 (arr4 4 4 6 7) (arr4 5 5 7 7)).maxindex 1 = -1 ↔
        ∀ i, ((sstate.mk 0 (arr4 4 4 6 7) (arr4 5 5 7 7)).high i >>> (1 : Nat)) -
          ((sstate.mk 0 (arr4 4 4 6 7) (arr4 5 5 7 7)).low i >>> (1 : Nat)) = 0) ∧
      ((sstate.mk 0 (arr4 4 4 6 7) (arr4 5 5 7 7)).maxindex 1 ≠ -1 →
        0 ≤ (sstate.mk 0 (arr4 4 4 6 7) (arr4 5 5 7 7)).maxindex 1 ∧
        (sstate.mk 0 (arr4 4 4 6 7) (arr4 5 5 7 7)).maxindex 1 ≤ 3)) :=
  ⟨by decide, maxindex_sentinel_iff_extents_zero
    (sstate.mk 0 (arr4 4 4 6 7) (arr4 5 5 7 7)) 1 (by decide)⟩

/-! ## Legality -/

/-- C5: for every sstate with `low[i] ≤ high[i]` for all `i`, `islegal()` is true if and
only if the state holds a geometrically valid rectangle: integers `left`, `top`, `right`,
`bottom` within the four intervals with `left ≤ right` and `top ≤ bottom`. -/
theorem islegal_iff_holds_valid_rectangle (s : sstate) (h : ∀ i, s.low i ≤ s.high i) :
    s.islegal = true ↔
      ∃ left top right bottom : Int,
        (s.low 0 ≤ left ∧ left ≤ s.high 0) ∧ (s.low 1 ≤ top ∧ top ≤ s.high 1) ∧
        (s.low 2 ≤ right ∧ right ≤ s.high 2) ∧ (s.low 3 ≤ bottom ∧ bottom ≤ s.high 3) ∧
        left ≤ right ∧ top ≤ bottom := by
  have h0 := h 0
  have h1 := h 1
  have h2 := h 2
  have h3 := h 3
  simp only [sstate.islegal, Bool.and_eq_true, decide_eq_true_eq]
  constructor
  · rintro ⟨ha, hb⟩
    exact ⟨s.low 0, s.low 1, s.high 2, s.high 3, ⟨le_refl _, h0⟩, ⟨le_refl _, h1⟩,
      ⟨h2, le_refl _⟩, ⟨h3, le_refl _⟩, ha, hb⟩
  · rintro ⟨l, t, r, b, ⟨hl, _⟩, ⟨ht, _⟩, ⟨_, hr⟩, ⟨_, hb⟩, hlr, htb⟩
    exact ⟨by omega, by omega⟩

theorem islegal_iff_holds_valid_rectangle_witness :
    (∀ i, (sstate.mk 0 (arr4 2 3 0 0) (arr4 6 8 4 5)).low i ≤
      (sstate.mk 0 (arr4 2 3 0 0) (arr4 6 8 4 5)).high i) ∧
    ((sstate.mk 0 (arr4 2 3 0 0) (arr4 6 8 4 5)).islegal = true ↔
      ∃ left top right bottom : Int,
        ((sstate.mk 0 (arr4 2 3 0 0) (arr4 6 8 4 5)).low 0 ≤ left ∧
          left ≤ (sstate.mk 0 (arr4 2 3 0 0) (arr4 6 8 4 5)).high 0) ∧
        ((sstate.mk 0 (arr4 2 3 0 0) (arr4 6 8 4 5)).low 1 ≤ top ∧
          top ≤ (sstate.mk 0 (arr4 2 3 0 0) (arr4 6 8 4 5)).high 1) ∧
        ((sstate.mk 0 (arr4 2 3 0 0) (arr4 6 8 4 5)).low 2 ≤ right ∧
          right ≤ (sstate.mk 0 (arr4 2 3 0 0) (arr4 6 8 4 5)).high 2) ∧
        ((sstate.mk 0 (arr4 2 3 0 0) (arr4 6 8 4 5)).low 3 ≤ bottom ∧
          bottom ≤ (sstate.mk 0 (arr4 2 3 0 0) (arr4 6 8 4 5)).high 3) ∧
        left ≤ right ∧ top ≤ bottom) :=
  ⟨by decide, islegal_iff_holds_valid_rectangle
    (sstate.mk 0 (arr4 2 3 0 0) (arr4 6 8 4 5)) (by decide)⟩

/-! ## Quantization -/

/-- C8 (as stated, refuted): at `qbits = 1` the state `low = {1,0,0,0}`,
`high = {2,0,0,0}` has `0 ≤ high[i] - low[i] < 2` for every `i`, yet the quantized extent
of coordinate `0` is `1` and `maxindex(1)` returns `0`. And at `qbits = 33` the state
`low = {0,0,0,0}`, `high = {2,0,0,0}` has `0 ≤ high[i] - low[i] < 2^33` for every `i`, yet
the compiled `maxindex(33)` returns `0`. -/
theorem close_bounds_not_collapsed_counterexample :
    ((∀ i, 0 ≤ (sstate.mk 0 (arr4 1 0 0 0) (arr4 2 0 0 0)).high i -
        (sstate.mk 0 (arr4 1 0 0 0) (arr4 2 0 0 0)).low i ∧
      (sstate.mk 0 (arr4 1 0 0 0) (arr4 2 0 0 0)).high i -
        (sstate.mk 0 (arr4 1 0 0 0) (arr4 2 0 0 0)).low i < 2 ^ 1) ∧
    ((sstate.mk 0 (arr4 1 0 0 0) (arr4 2 0 0 0)).high 0 >>> (1 : Nat)) -
      ((sstate.mk 0 (arr4 1 0 0 0) (arr4 2 0 0 0)).low 0 >>> (1 : Nat)) = 1 ∧
    (sstate.mk 0 (arr4 1 0 0 0) (arr4 2 0 0 0)).maxindex 1 = 0) ∧
    ((∀ i, 0 ≤ (sstate.mk 0 (arr4 0 0 0 0) (arr4 2 0 0 0)).high i -
        (sstate.mk 0 (arr4 0 0 0 0) (arr4 2 0 0 0)).low i ∧
      (sstate.mk 0 (arr4 0 0 0 0) (arr4 2 0 0 0)).high i -
        (sstate.mk 0 (arr4 0 0 0 0) (arr4 2 0 0 0)).low i < 2 ^ 33) ∧
    (sstate.mk 0 (arr4 0 0 0 0) (arr4 2 0 0 0)).maxindex_masked 33 = 0) := by
  decide

/-- C8 (amended): for `0 ≤ qbits ≤ 31`, if every coordinate satisfies
`0 ≤ high[i] - low[i] < 2^qbits - (low[i] mod 2^qbits)`, that is, the two bounds lie in the
same cell of width `2^qbits` starting at a multiple of `2^qbits`, then the quantized extent
of every coordinate is zero and `maxindex(qbits)` returns `-1`, also as compiled. -/
theorem same_cell_bounds_collapsed (s : sstate) (qbits : Nat) (hq : qbits ≤ 31)
    (h : ∀ i, 0 ≤ s.high i - s.low i ∧
      s.high i - s.low i < 2 ^ qbits - s.low i % 2 ^ qbits) :
    (∀ i, (s.high i >>> qbits) - (s.low i >>> qbits) = 0) ∧ s.maxindex qbits = -1 ∧
      s.maxindex_masked qbits = -1 := by
  have hz : ∀ i, (s.high i >>> qbits) - (s.low i >>> qbits) = 0 := by
    intro i
    obtain ⟨h1, h2⟩ := h i
    have hp : (0 : Int) < 2 ^ qbits := by positivity
    rw [Int.shiftRight_eq_div_pow, Int.shiftRight_eq_div_pow]
    push_cast
    have hm := Int.emod_nonneg (s.low i) (ne_of_gt hp)
    have hd := Int.emod_add_ediv (s.low i) (2 ^ qbits)
    have key : s.high i / 2 ^ qbits = s.low i / 2 ^ qbits ∧
        s.high i % 2 ^ qbits = s.low i % 2 ^ qbits + (s.high i - s.low i) := by
      rw [Int.ediv_emod_unique hp]
      refine ⟨by linarith, by omega, by omega⟩
    omega
  have hm : s.maxindex qbits = -1 := by
    rw [maxindex_eq_neg_one_iff]
    intro j
    have := hz j
    simp only [sstate.interval_width]
    omega
  exact ⟨hz, hm, by rw [maxindex_masked_of_le s qbits hq]; exact hm⟩

theorem same_cell_bounds_collapsed_witness :
    (2 : Nat) ≤ 31 ∧
    (∀ i, 0 ≤ (sstate.mk 0 (arr4 4 9 0 13) (arr4 7 10 3 15)).high i -
        (sstate.mk 0 (arr4 4 9 0 13) (arr4 7 10 3 15)).low i ∧
      (sstate.mk 0 (arr4 4 9 0 13) (arr4 7 10 3 15)).high i -
        (sstate.mk 0 (arr4 4 9 0 13) (arr4 7 10 3 15)).low i <
          2 ^ 2 - (sstate.mk 0 (arr4 4 9 0 13) (arr4 7 10 3 15)).low i % 2 ^ 2) ∧
    ((∀ i, ((sstate.mk 0 (arr4 4 9 0 13) (arr4 7 10 3 15)).high i >>> (2 : Nat)) -
        ((sstate.mk 0 (arr4 4 9 0 13) (arr4 7 10 3 15)).low i >>> (2 : Nat)) = 0) ∧
      (sstate.mk 0 (arr4 4 9 0 13) (arr4 7 10 3 15)).maxindex 2 = -1 ∧
      (sstate.mk 0 (arr4 4 9 0 13) (arr4 7 10 3 15)).maxindex_masked 2 = -1) :=
  ⟨by decide, by decide, same_cell_bounds_collapsed
    (sstate.mk 0 (arr4 4 9 0 13) (arr4 7 10 3 15)) 2 (by decide) (by decide)⟩

/-- C9 (as stated, refuted): on the state `low = {0,0,0,0}`, `high = {1,0,0,0}` the
compiled `maxindex(1)` returns `-1` and the compiled `maxindex(32)` returns `0`: a shift
count of 32 shifts by 0. -/
theorem maxindex_sentinel_mono_qbits_counterexample :
    (1 : Nat) ≤ 32 ∧
    (sstate.mk 0 (arr4 0 0 0 0) (arr4 1 0 0 0)).maxindex_masked 1 = -1 ∧
    (sstate.mk 0 (arr4 0 0 0 0) (arr4 1 0 0 0)).maxindex_masked 32 = 0 := by
  decide

/-- C9 (amended): for every sstate and all `q ≤ q2 ≤ 31`, if `maxindex(q)` returns `-1`
then `maxindex(q2)` returns `-1`, also as compiled. -/
theorem maxindex_sentinel_mono_qbits (s : sstate) (q q2 : Nat) (hq : q ≤ q2)
    (hq2 : q2 ≤ 31) (h : s.maxindex q = -1) :
    s.maxindex q2 = -1 ∧ s.maxindex_masked q2 = -1 := by
  have hm : s.maxindex q2 = -1 := by
    rw [maxindex_eq_neg_one_iff] at h ⊢
    intro j
    have hj := h j
    simp only [sstate.interval_width] at hj ⊢
    obtain ⟨d, rfl⟩ := Nat.exists_eq_add_of_le hq
    rw [Int.shiftRight_add, Int.shiftRight_add]
    have := shr_mono (s.high j >>> q) (s.low j >>> q) d (by omega)
    omega
  exact ⟨hm, by rw [maxindex_masked_of_le s q2 hq2]; exact hm⟩

theorem maxindex_sentinel_mono_qbits_witness :
    (1 : Nat) ≤ 3 ∧ (3 : Nat) ≤ 31 ∧
    (sstate.mk 0 (arr4 4 4 6 7) (arr4 5 5 7 7)).maxindex 1 = -1 ∧
    (sstate.mk 0 (arr4 4 4 6 7) (arr4 5 5 7 7)).maxindex 3 = -1 ∧
    (sstate.mk 0 (arr4 4 4 6 7) (arr4 5 5 7 7)).maxindex_masked 3 = -1 :=
  ⟨by decide, by decide, by decide, maxindex_sentinel_mono_qbits
    (sstate.mk 0 (arr4 4 4 6 7) (arr4 5 5 7 7)) 1 3 (by decide) (by decide) (by decide)⟩

/-! ## The full-space constructor -/

theorem toShort_of_isShort (x : Int) (h : isShort x) : toShort x = x := by
  unfold isShort at h
  unfold toShort
  omega

theorem round_down_spec (x : Int) (qbits : Nat) :
    shl (x >>> qbits) qbits = x / 2 ^ qbits * 2 ^ qbits ∧
    x / 2 ^ qbits * 2 ^ qbits ≤ x ∧ x < x / 2 ^ qbits * 2 ^ qbits + 2 ^ qbits := by
  have hp : (0 : Int) < 2 ^ qbits := by positivity
  refine ⟨?_, Int.ediv_mul_le x (ne_of_gt hp), ?_⟩
  · unfold shl
    rw [Int.shiftRight_eq_div_pow]
    push_cast
    rfl
  · have := Int.lt_ediv_add_one_mul_self x hp
    linarith

theorem round_down_nonneg (x : Int) (qbits : Nat) (h : 0 ≤ x) :
    0 ≤ x / 2 ^ qbits * 2 ^ qbits := by
  have hp : (0 : Int) < 2 ^ qbits := by positivity
  exact mul_nonneg (Int.ediv_nonneg h (le_of_lt hp)) (le_of_lt hp)

theorem round_down_largest (x m : Int) (qbits : Nat) (hd : (2 : Int) ^ qbits ∣ m)
    (hm : m ≤ x) : m ≤ x / 2 ^ qbits * 2 ^ qbits := by
  have hp : (0 : Int) < 2 ^ qbits := by positivity
  obtain ⟨k, rfl⟩ := hd
  have hk : k ≤ x / 2 ^ qbits := by
    apply Int.le_ediv_of_mul_le hp
    linarith
  calc 2 ^ qbits * k = k * 2 ^ qbits := by ring
    _ ≤ x / 2 ^ qbits * 2 ^ qbits := mul_le_mul_of_nonneg_right hk (le_of_lt hp)

/-- C6: for `1 ≤ W, H ≤ 32767` and `0 ≤ qbits ≤ 30` the constructor
`sstate(W, H, qbits)` yields `low = {0,0,0,0}` and `high = {hw, hh, hw, hh}` with
`hw = ⌊(W-1) / 2^qbits⌋ · 2^qbits` and `hh = ⌊(H-1) / 2^qbits⌋ · 2^qbits`, stored without
16-bit wrap-around; `hw` is the largest multiple of `2^qbits` not exceeding `W-1`, and `hh`
the largest not exceeding `H-1`. -/
theorem fullspace_low_high (W H : Int) (qbits : Nat) (hW : 1 ≤ W ∧ W ≤ 32767)
    (hH : 1 ≤ H ∧ H ≤ 32767) (_hq : qbits ≤ 30) :
    (sstate.fullspace W H qbits).low = arr4 0 0 0 0 ∧
    (sstate.fullspace W H qbits).high =
      arr4 ((W - 1) / 2 ^ qbits * 2 ^ qbits) ((H - 1) / 2 ^ qbits * 2 ^ qbits)
        ((W - 1) / 2 ^ qbits * 2 ^ qbits) ((H - 1) / 2 ^ qbits * 2 ^ qbits) ∧
    ((2 : Int) ^ qbits ∣ (W - 1) / 2 ^ qbits * 2 ^ qbits ∧
      (W - 1) / 2 ^ qbits * 2 ^ qbits ≤ W - 1 ∧
      ∀ m : Int, (2 : Int) ^ qbits ∣ m → m ≤ W - 1 → m ≤ (W - 1) / 2 ^ qbits * 2 ^ qbits) ∧
    ((2 : Int) ^ qbits ∣ (H - 1) / 2 ^ qbits * 2 ^ qbits ∧
      (H - 1) / 2 ^ qbits * 2 ^ qbits ≤ H - 1 ∧
      ∀ m : Int, (2 : Int) ^ qbits ∣ m → m ≤ H - 1 → m ≤ (H - 1) / 2 ^ qbits * 2 ^ qbits) := by
  obtain ⟨ew, lw, _⟩ := round_down_spec (W - 1) qbits
  obtain ⟨eh, lh, _⟩ := round_down_spec (H - 1) qbits
  have nw := round_down_nonneg (W - 1) qbits (by omega)
  have nh := round_down_nonneg (H - 1) qbits (by omega)
  refine ⟨rfl, ?_, ⟨Dvd.intro_left _ rfl, lw, fun m hd hm => round_down_largest _ m qbits hd hm⟩,
    ⟨Dvd.intro_left _ rfl, lh, fun m hd hm => round_down_largest _ m qbits hd hm⟩⟩
  simp only [sstate.fullspace, ew, eh]
  rw [toShort_of_isShort _ ⟨by omega, by omega⟩, toShort_of_isShort _ ⟨by omega, by omega⟩]

theorem fullspace_low_high_witness :
    ((1 : Int) ≤ 10 ∧ (10 : Int) ≤ 32767) ∧ ((1 : Int) ≤ 8 ∧ (8 : Int) ≤ 32767) ∧
    (1 : Nat) ≤ 30 ∧
    (sstate.fullspace 10 8 1).low = arr4 0 0 0 0 ∧
    (sstate.fullspace 10 8 1).high = arr4 8 6 8 6 ∧
    (sstate.fullspace 10 8 0).high = arr4 9 7 9 7 :=
  ⟨by decide, by decide, by decide,
    (fullspace_low_high 10 8 1 (by decide) (by decide) (by decide)).1,
    (fullspace_low_high 10 8 1 (by decide) (by decide) (by decide)).2.1.trans (by decide),
    (fullspace_low_high 10 8 0 (by decide) (by decide) (by decide)).2.1.trans (by decide)⟩

/-! ## The order used by the queue -/

theorem f32lt_iff (a b : Nat) (ha : f32isNaN a = false) (hb : f32isNaN b = false) :
    f32lt a b = true ↔ f32key a < f32key b := by
  simp [f32lt, ha, hb]

theorem f32eq_iff (a b : Nat) (ha : f32isNaN a = false) (hb : f32isNaN b = false) :
    f32eq a b = true ↔ f32key a = f32key b := by
  simp [f32eq, ha, hb]

/-- C10: `sstate::less`, which `sstate_comparisson` wraps, compares the `upper` fields
only. On states whose `upper` is not a NaN it is irreflexive, asymmetric and transitive,
two states are comparable or have equal `upper`, and its result does not change when the
`low` and `high` arrays of either state are replaced. -/
theorem less_is_strict_order_on_upper (a b c : sstate) (ha : f32isNaN a.upper = false)
    (hb : f32isNaN b.upper = false) (hc : f32isNaN c.upper = false) :
    sstate_comparisson a b = a.less b ∧
    a.less a = false ∧
    (a.less b = true → b.less a = false) ∧
    (a.less b = true → b.less c = true → a.less c = true) ∧
    (a.less b = true ∨ b.less a = true ∨ f32eq a.upper b.upper = true) ∧
    (∀ l h l2 h2 : Fin 4 → Int,
      (sstate.mk a.upper l h).less (sstate.mk b.upper l2 h2) = a.less b) := by
  have hab := f32lt_iff a.upper b.upper ha hb
  have hba := f32lt_iff b.upper a.upper hb ha
  have hbc := f32lt_iff b.upper c.upper hb hc
  have hac := f32lt_iff a.upper c.upper ha hc
  have haa := f32lt_iff a.upper a.upper ha ha
  have he := f32eq_iff a.upper b.upper ha hb
  refine ⟨rfl, ?_, ?_, ?_, ?_, fun _ _ _ _ => rfl⟩
  · simp only [sstate.less]
    rw [← Bool.not_eq_true, haa]
    omega
  · simp only [sstate.less]
    rw [← Bool.not_eq_true, hab, hba]
    omega
  · simp only [sstate.less]
    rw [hab, hbc, hac]
    omega
  · simp only [sstate.less]
    rw [hab, hba, he]
    omega

theorem less_is_strict_order_on_upper_witness :
    f32isNaN (sstate.mk 0x3F800000 (arr4 0 0 0 0) (arr4 1 1 1 1)).upper = false ∧
    f32isNaN (sstate.mk 0x40A00000 (arr4 0 0 0 0) (arr4 0 0 0 0)).upper = false ∧
    f32isNaN (sstate.mk 0xBF800000 (arr4 2 2 2 2) (arr4 3 3 3 3)).upper = false ∧
    (sstate.mk 0x3F800000 (arr4 0 0 0 0) (arr4 1 1 1 1)).less
      (sstate.mk 0x40A00000 (arr4 0 0 0 0) (arr4 0 0 0 0)) = true ∧
    (sstate.mk 0x40A00000 (arr4 0 0 0 0) (arr4 0 0 0 0)).less
      (sstate.mk 0x3F800000 (arr4 0 0 0 0) (arr4 1 1 1 1)) = false :=
  ⟨by decide, by decide, by decide, by decide,
    (less_is_strict_order_on_upper (sstate.mk 0x3F800000 (arr4 0 0 0 0) (arr4 1 1 1 1))
      (sstate.mk 0x40A00000 (arr4 0 0 0 0) (arr4 0 0 0 0))
      (sstate.mk 0xBF800000 (arr4 2 2 2 2) (arr4 3 3 3 3))
      (by decide) (by decide) (by decide)).2.2.1 (by decide)⟩

/-! ## Dimensions outside the valid range -/

theorem round_down_of_invalid (x : Int) (qbits : Nat) (hq : qbits ≤ 15)
    (hx : (-32768 ≤ x ∧ x ≤ -1) ∨ (32768 ≤ x ∧ x ≤ 65535)) :
    toShort (shl (x >>> qbits) qbits) < 0 := by
  obtain ⟨e, le, _⟩ := round_down_spec x qbits
  have hd : (2 : Int) ^ qbits ∣ 2 ^ 15 := pow_dvd_pow 2 hq
  rw [e]
  rcases hx with ⟨h1, h2⟩ | ⟨h1, h2⟩
  · have := round_down_largest x (-32768) qbits (by
      have : (-32768 : Int) = -(2 ^ 15) := by norm_num
      rw [this]
      exact (dvd_neg).mpr hd) h1
    unfold toShort
    omega
  · have := round_down_largest x 32768 qbits (by
      have : (32768 : Int) = 2 ^ 15 := by norm_num
      rw [this]
      exact hd) h1
    unfold toShort
    omega

/-- C7 (as stated, refuted): the constructor builds a State from `W = 0` and from
`W = 40000`: `sstate(0, 8, 0)` has `high = {-1, 7, -1, 7}` and `sstate(40000, 8, 0)` has
`high = {-25537, 7, -25537, 7}`, both with `low = {0,0,0,0}`. -/
theorem fullspace_built_from_invalid_dimensions_counterexample :
    ((sstate.fullspace 0 8 0).upper = FLT_MAX ∧
      (sstate.fullspace 0 8 0).low = arr4 0 0 0 0 ∧
      (sstate.fullspace 0 8 0).high = arr4 (-1) 7 (-1) 7) ∧
    ((sstate.fullspace 40000 8 0).upper = FLT_MAX ∧
      (sstate.fullspace 40000 8 0).low = arr4 0 0 0 0 ∧
      (sstate.fullspace 40000 8 0).high = arr4 (-25537) 7 (-25537) 7) := by
  decide

/-- C7 (amended): the constructor `sstate(W, H, qbits)` never fails. For `qbits ≤ 15`,
when `W` or `H` is non-positive (down to `-32767`) or exceeds `32768` (up to `65536`), the
State it yields has `low = {0,0,0,0}` and a negative `high` on an affected coordinate, so
`low[i] ≤ high[i]` fails there and `islegal()` is false. -/
theorem fullspace_of_invalid_dimensions (W H : Int) (qbits : Nat) (hq : qbits ≤ 15)
    (hbad : ((-32767 ≤ W ∧ W ≤ 0) ∨ (32769 ≤ W ∧ W ≤ 65536)) ∨
      ((-32767 ≤ H ∧ H ≤ 0) ∨ (32769 ≤ H ∧ H ≤ 65536))) :
    (sstate.fullspace W H qbits).low = arr4 0 0 0 0 ∧
    (∃ i, (sstate.fullspace W H qbits).high i < (sstate.fullspace W H qbits).low i) ∧
    (sstate.fullspace W H qbits).islegal = false := by
  refine ⟨rfl, ?_⟩
  rcases hbad with hw | hh
  · have h := round_down_of_invalid (W - 1) qbits hq (by omega)
    refine ⟨⟨0, h⟩, ?_⟩
    have h2 : ¬ ((0 : Int) ≤ toShort (shl ((W - 1) >>> qbits) qbits)) := by omega
    simp [sstate.islegal, sstate.fullspace, arr4, h2]
  · have h := round_down_of_invalid (H - 1) qbits hq (by omega)
    refine ⟨⟨1, h⟩, ?_⟩
    have h2 : ¬ ((0 : Int) ≤ toShort (shl ((H - 1) >>> qbits) qbits)) := by omega
    simp [sstate.islegal, sstate.fullspace, arr4, h2]

theorem fullspace_of_invalid_dimensions_witness :
    (3 : Nat) ≤ 15 ∧
    ((((-32767 : Int) ≤ 0 ∧ (0 : Int) ≤ 0) ∨ ((32769 : Int) ≤ 0 ∧ (0 : Int) ≤ 65536)) ∨
      (((-32767 : Int) ≤ 8 ∧ (8 : Int) ≤ 0) ∨ ((32769 : Int) ≤ 8 ∧ (8 : Int) ≤ 65536))) ∧
    (sstate.fullspace 0 8 3).low = arr4 0 0 0 0 ∧
    (∃ i, (sstate.fullspace 0 8 3).high i < (sstate.fullspace 0 8 3).low i) ∧
    (sstate.fullspace 0 8 3).islegal = false :=
  ⟨by decide, by decide, fullspace_of_invalid_dimensions 0 8 3 (by decide) (by decide)⟩

/-! ## The search driver: queue, split and loop -/

theorem f32le_iff (a b : Nat) :
    f32le a b = true ↔ f32isNaN a = false ∧ f32isNaN b = false ∧ f32key a ≤ f32key b := by
  simp [f32le, and_assoc]

theorem f32eq_iff2 (a b : Nat) :
    f32eq a b = true ↔ f32isNaN a = false ∧ f32isNaN b = false ∧ f32key a = f32key b := by
  simp [f32eq, and_assoc]

theorem splitAxis_eq_none_iff (s : sstate) (qbits : Nat) :
    splitAxis s qbits = none ↔ s.maxindex qbits = -1 := by
  have h := maxindex_spec s qbits
  unfold splitAxis
  split_ifs <;> simp <;> omega

theorem splitAxis_some_width (s : sstate) (qbits : Nat) (i : Fin 4)
    (h : splitAxis s qbits = some i) : 0 < s.interval_width qbits i := by
  have hs := maxindex_spec s qbits
  unfold splitAxis at h
  split_ifs at h <;> simp at h <;> subst h <;> omega

theorem popBest_eq_none (queue : List sstate) : popBest queue = none ↔ queue = [] := by
  cases queue with
  | nil => simp [popBest]
  | cons x xs =>
    simp only [popBest]
    cases popBest xs with
    | none => simp
    | some p =>
      obtain ⟨m, r⟩ := p
      simp only []
      split_ifs <;> simp

theorem popBest_perm (queue : List sstate) (s : sstate) (rest : List sstate)
    (h : popBest queue = some (s, rest)) : queue.Perm (s :: rest) := by
  induction queue generalizing s rest with
  | nil => simp [popBest] at h
  | cons x xs ih =>
    simp only [popBest] at h
    cases hp : popBest xs with
    | none =>
      rw [hp] at h
      simp only [Option.some.injEq, Prod.mk.injEq] at h
      obtain ⟨rfl, rfl⟩ := h
      rw [(popBest_eq_none xs).mp hp]
    | some p =>
      obtain ⟨m, r⟩ := p
      rw [hp] at h
      have hperm := ih m r hp
      simp only at h
      split_ifs at h
      · simp only [Option.some.injEq, Prod.mk.injEq] at h
        obtain ⟨rfl, rfl⟩ := h
        exact (List.Perm.cons x hperm).trans (List.Perm.swap _ _ _)
      · simp only [Option.some.injEq, Prod.mk.injEq] at h
        obtain ⟨rfl, rfl⟩ := h
        exact List.Perm.cons x hperm

theorem popBest_best (queue : List sstate) (s : sstate) (rest : List sstate)
    (hn : ∀ x ∈ queue, f32isNaN x.upper = false)
    (h : popBest queue = some (s, rest)) :
    ∀ y ∈ queue, f32key y.upper ≤ f32key s.upper := by
  induction queue generalizing s rest with
  | nil => simp [popBest] at h
  | cons x xs ih =>
    have hnx := hn x (List.mem_cons_self _ _)
    have hnxs : ∀ y ∈ xs, f32isNaN y.upper = false := fun y hy => hn y (List.mem_cons_of_mem _ hy)
    simp only [popBest] at h
    cases hp : popBest xs with
    | none =>
      rw [hp] at h
      simp only [Option.some.injEq, Prod.mk.injEq] at h
      obtain ⟨rfl, rfl⟩ := h
      rw [(popBest_eq_none xs).mp hp]
      intro y hy
      simp at hy
      rw [hy]
    | some p =>
      obtain ⟨m, r⟩ := p
      rw [hp] at h
      have hbest := ih m r hnxs hp
      have hm : m ∈ xs := (popBest_perm xs m r hp).mem_iff.mpr (List.mem_cons_self _ _)
      have hlt := f32lt_iff x.upper m.upper hnx (hnxs m hm)
      simp only [sstate_comparisson, sstate.less] at h
      split_ifs at h with hc
      · simp only [Option.some.injEq, Prod.mk.injEq] at h
        obtain ⟨rfl, rfl⟩ := h
        intro y hy
        rcases List.mem_cons.mp hy with rfl | hy
        · exact le_of_lt (hlt.mp hc)
        · exact hbest y hy
      · simp only [Option.some.injEq, Prod.mk.injEq] at h
        obtain ⟨rfl, rfl⟩ := h
        have hge : f32key m.upper ≤ f32key x.upper := by
          by_contra hcon
          exact hc (hlt.mpr (by omega))
        intro y hy
        rcases List.mem_cons.mp hy with rfl | hy
        · exact le_refl _
        · exact le_trans (hbest y hy) hge

theorem split_midpoint (s : sstate) (i : Fin 4) (h : 0 < s.interval_width 0 i) :
    s.low i ≤ (s.low i + s.high i) / 2 ∧ (s.low i + s.high i) / 2 < s.high i := by
  simp only [sstate.interval_width, shr_zero] at h
  omega

theorem split_extent (s : sstate) (i : Fin 4) (h : 0 < s.interval_width 0 i) :
    (splitChildren s i).1.extent + 1 ≤ s.extent ∧
    (splitChildren s i).2.extent + 1 ≤ s.extent := by
  have hm := split_midpoint s i h
  fin_cases i <;>
    simp [splitChildren, sstate.extent, Function.update] at hm ⊢ <;> omega

theorem split_bounds (s : sstate) (i : Fin 4) (h : 0 < s.interval_width 0 i)
    (hs : ∀ j, s.low j ≤ s.high j) :
    (∀ j, (splitChildren s i).1.low j ≤ (splitChildren s i).1.high j) ∧
    (∀ j, (splitChildren s i).2.low j ≤ (splitChildren s i).2.high j) ∧
    (∀ j, s.low j ≤ (splitChildren s i).1.low j ∧ (splitChildren s i).1.high j ≤ s.high j) ∧
    (∀ j, s.low j ≤ (splitChildren s i).2.low j ∧ (splitChildren s i).2.high j ≤ s.high j) := by
  have hm := split_midpoint s i h
  simp only [splitChildren]
  refine ⟨?_, ?_, ?_, ?_⟩ <;> intro j <;> have hj := hs j <;>
    by_cases hji : j = i
  all_goals first
    | (subst hji; simp only [Function.update_same]; omega)
    | (simp only [Function.update_noteq hji]; omega)

theorem split_cover (s : sstate) (i : Fin 4) (l t r b : Int)
    (h : holdsRect s.low s.high l t r b) :
    holdsRect (splitChildren s i).1.low (splitChildren s i).1.high l t r b ∨
    holdsRect (splitChildren s i).2.low (splitChildren s i).2.high l t r b := by
  unfold holdsRect at h ⊢
  fin_cases i <;> simp [splitChildren, Function.update] <;> omega

theorem islegal_of_holds (s : sstate) (l t r b : Int) (h : holdsRect s.low s.high l t r b)
    (hlr : l ≤ r) (htb : t ≤ b) : s.islegal = true := by
  unfold holdsRect at h
  simp only [sstate.islegal, Bool.and_eq_true, decide_eq_true_eq]
  omega

theorem mem_legalChildren (bound : (Fin 4 → Int) → (Fin 4 → Int) → Nat) (s : sstate)
    (i : Fin 4) (c : sstate) (h : c ∈ legalChildren bound s i) :
    ∃ c0, (c0 = (splitChildren s i).1 ∨ c0 = (splitChildren s i).2) ∧ c0.islegal = true ∧
      c.low = c0.low ∧ c.high = c0.high ∧ c.upper = bound c0.low c0.high := by
  simp only [legalChildren, List.mem_map, List.mem_filter, List.mem_cons,
    List.mem_singleton, List.not_mem_nil, or_false] at h
  obtain ⟨c0, ⟨hc0, hl⟩, rfl⟩ := h
  exact ⟨c0, hc0, hl, rfl, rfl, rfl⟩

theorem legalChildren_holds (bound : (Fin 4 → Int) → (Fin 4 → Int) → Nat) (s : sstate)
    (i : Fin 4) (l t r b : Int) (h : holdsRect s.low s.high l t r b) (hlr : l ≤ r)
    (htb : t ≤ b) : ∃ c ∈ legalChildren bound s i, holdsRect c.low c.high l t r b := by
  simp only [legalChildren, List.mem_map, List.mem_filter, List.mem_cons,
    List.mem_singleton, List.not_mem_nil, or_false]
  rcases split_cover s i l t r b h with h1 | h2
  · exact ⟨_, ⟨(splitChildren s i).1, ⟨Or.inl rfl, islegal_of_holds _ l t r b h1 hlr htb⟩,
      rfl⟩, h1⟩
  · exact ⟨_, ⟨(splitChildren s i).2, ⟨Or.inr rfl, islegal_of_holds _ l t r b h2 hlr htb⟩,
      rfl⟩, h2⟩

theorem potential_legalChildren (bound : (Fin 4 → Int) → (Fin 4 → Int) → Nat) (s : sstate)
    (i : Fin 4) (h : 0 < s.interval_width 0 i) :
    potential (legalChildren bound s i) + 1 ≤ 3 ^ s.extent := by
  obtain ⟨h1, h2⟩ := split_extent s i h
  have hle : potential (legalChildren bound s i) ≤
      3 ^ (splitChildren s i).1.extent + 3 ^ (splitChildren s i).2.extent := by
    simp only [potential, legalChildren, List.filter]
    cases (splitChildren s i).1.islegal <;> cases (splitChildren s i).2.islegal <;>
      simp [sstate.extent]
  obtain ⟨n, hn⟩ : ∃ n, s.extent = n + 1 := ⟨s.extent - 1, by omega⟩
  have e1 : (3 : Nat) ^ (splitChildren s i).1.extent ≤ 3 ^ n :=
    Nat.pow_le_pow_right (by norm_num) (by omega)
  have e2 : (3 : Nat) ^ (splitChildren s i).2.extent ≤ 3 ^ n :=
    Nat.pow_le_pow_right (by norm_num) (by omega)
  have e3 : (0 : Nat) < 3 ^ n := by positivity
  rw [hn, pow_succ]
  omega

theorem potential_cons (s : sstate) (queue : List sstate) :
    potential (s :: queue) = 3 ^ s.extent + potential queue := by
  simp [potential]

theorem potential_append (q1 q2 : List sstate) :
    potential (q1 ++ q2) = potential q1 + potential q2 := by
  simp [potential]

theorem potential_perm (q1 q2 : List sstate) (h : q1.Perm q2) :
    potential q1 = potential q2 := by
  unfold potential
  exact (h.map _).sum_eq

theorem stateOk_upper_bounds (W H : Int) (quality : Int → Int → Int → Int → Nat)
    (bound : (Fin 4 → Int) → (Fin 4 → Int) → Nat) (hadm : admissible W H quality bound)
    (s : sstate) (hs : stateOk W H bound s) (l t r b : Int)
    (hh : holdsRect s.low s.high l t r b) (hv : validRect W H l t r b) :
    f32isNaN s.upper = false ∧ f32isNaN (quality l t r b) = false ∧
      f32key (quality l t r b) ≤ f32key s.upper := by
  obtain ⟨_, _, _, _, _, _, hu⟩ := hs
  have h := (f32le_iff _ _).mp (hadm s.low s.high l t r b hh hv)
  rw [hu]
  exact ⟨h.2.1, h.1, h.2.2⟩

theorem stateOk_corner (W H : Int) (bound : (Fin 4 → Int) → (Fin 4 → Int) → Nat)
    (s : sstate) (hs : stateOk W H bound s) :
    holdsRect s.low s.high (s.low 0) (s.low 1) (s.high 2) (s.high 3) ∧
    validRect W H (s.low 0) (s.low 1) (s.high 2) (s.high 3) := by
  obtain ⟨hl, h0, h1, h2, h3, hleg, _⟩ := hs
  simp only [sstate.islegal, Bool.and_eq_true, decide_eq_true_eq] at hleg
  have := hl 0
  have := hl 1
  have := hl 2
  have := hl 3
  unfold holdsRect validRect
  omega

theorem stateOk_legalChildren (W H : Int) (bound : (Fin 4 → Int) → (Fin 4 → Int) → Nat)
    (s : sstate) (hs : stateOk W H bound s) (i : Fin 4) (h : 0 < s.interval_width 0 i)
    (c : sstate) (hc : c ∈ legalChildren bound s i) : stateOk W H bound c := by
  obtain ⟨hl, h0, h1, h2, h3, _, _⟩ := hs
  obtain ⟨b1, b2, b3, b4⟩ := split_bounds s i h hl
  obtain ⟨c0, hc0, hleg, el, eh, eu⟩ := mem_legalChildren bound s i c hc
  have hsub : (∀ j, c0.low j ≤ c0.high j) ∧ (∀ j, s.low j ≤ c0.low j ∧ c0.high j ≤ s.high j) := by
    rcases hc0 with rfl | rfl
    · exact ⟨b1, b3⟩
    · exact ⟨b2, b4⟩
  have e0 := (hsub.2 0).1
  have e1 := (hsub.2 1).1
  have e2 := (hsub.2 2).2
  have e3 := (hsub.2 3).2
  refine ⟨?_, ?_, ?_, ?_, ?_, ?_, ?_⟩
  · intro j; rw [el, eh]; exact hsub.1 j
  · rw [el]; omega
  · rw [el]; omega
  · rw [eh]; omega
  · rw [eh]; omega
  · simp only [sstate.islegal, el, eh] at hleg ⊢
    exact hleg
  · rw [eu, el, eh]

theorem queueInv_step (W H : Int) (bound : (Fin 4 → Int) → (Fin 4 → Int) → Nat)
    (queue : List sstate) (s : sstate) (rest : List sstate) (i : Fin 4)
    (hinv : queueInv W H bound queue) (hpop : popBest queue = some (s, rest))
    (hax : splitAxis s 0 = some i) :
    queueInv W H bound (legalChildren bound s i ++ rest) ∧
    potential (legalChildren bound s i ++ rest) + 1 ≤ potential queue := by
  have hperm := popBest_perm queue s rest hpop
  have hw := splitAxis_some_width s 0 i hax
  have hs : stateOk W H bound s := hinv.1 s (hperm.mem_iff.mpr (List.mem_cons_self _ _))
  refine ⟨⟨?_, ?_⟩, ?_⟩
  · intro c hc
    rcases List.mem_append.mp hc with hc | hc
    · exact stateOk_legalChildren W H bound s hs i hw c hc
    · exact hinv.1 c (hperm.mem_iff.mpr (List.mem_cons_of_mem _ hc))
  · intro l t r b hv
    obtain ⟨s2, hs2, hh⟩ := hinv.2 l t r b hv
    rcases List.mem_cons.mp (hperm.mem_iff.mp hs2) with rfl | hr
    · obtain ⟨c, hc, hch⟩ := legalChildren_holds bound s2 i l t r b hh hv.1.2.1 hv.2.2.1
      exact ⟨c, List.mem_append.mpr (Or.inl hc), hch⟩
    · exact ⟨s2, List.mem_append.mpr (Or.inr hr), hh⟩
  · rw [potential_perm queue (s :: rest) hperm, potential_cons, potential_append]
    have := potential_legalChildren bound s i hw
    omega

theorem terminal_box_optimal (W H : Int) (quality : Int → Int → Int → Int → Nat)
    (bound : (Fin 4 → Int) → (Fin 4 → Int) → Nat) (hadm : admissible W H quality bound)
    (hex : exactOnSingletons W H quality bound)
    (queue : List sstate) (s : sstate) (rest : List sstate)
    (hinv : queueInv W H bound queue) (hpop : popBest queue = some (s, rest))
    (hax : splitAxis s 0 = none) :
    validRect W H (s.low 0) (s.low 1) (s.low 2) (s.low 3) ∧
    f32eq s.upper (quality (s.low 0) (s.low 1) (s.low 2) (s.low 3)) = true ∧
    ∀ l t r b : Int, validRect W H l t r b → f32le (quality l t r b) s.upper = true := by
  have hperm := popBest_perm queue s rest hpop
  have hmem : s ∈ queue := hperm.mem_iff.mpr (List.mem_cons_self _ _)
  have hs : stateOk W H bound s := hinv.1 s hmem
  have hm := (splitAxis_eq_none_iff s 0).mp hax
  rw [maxindex_eq_neg_one_iff] at hm
  have heq : s.high = s.low := by
    funext j
    have h1 := hm j
    have h2 := hs.1 j
    simp only [sstate.interval_width, shr_zero] at h1
    omega
  obtain ⟨hc1, hc2⟩ := stateOk_corner W H bound s hs
  rw [heq] at hc1 hc2
  have hu : s.upper = bound s.low s.low := by
    have := hs.2.2.2.2.2.2
    rw [heq] at this
    exact this
  have hexs := hex s.low hc2
  rw [← hu] at hexs
  have hnan : ∀ x ∈ queue, f32isNaN x.upper = false := by
    intro x hx
    have hxo := hinv.1 x hx
    obtain ⟨c1, c2⟩ := stateOk_corner W H bound x hxo
    exact (stateOk_upper_bounds W H quality bound hadm x hxo _ _ _ _ c1 c2).1
  have hbest := popBest_best queue s rest hnan hpop
  refine ⟨hc2, hexs, ?_⟩
  intro l t r b hv
  obtain ⟨s2, hs2, hh⟩ := hinv.2 l t r b hv
  obtain ⟨_, n2, k2⟩ := stateOk_upper_bounds W H quality bound hadm s2 (hinv.1 s2 hs2) l t r b hh hv
  rw [f32le_iff]
  exact ⟨n2, hnan s hmem, le_trans k2 (hbest s2 hs2)⟩

theorem searchLoop_optimal (W H : Int) (quality : Int → Int → Int → Int → Nat)
    (bound : (Fin 4 → Int) → (Fin 4 → Int) → Nat) (hW : 1 ≤ W) (hH : 1 ≤ H)
    (hadm : admissible W H quality bound) (hex : exactOnSingletons W H quality bound)
    (fuel : Nat) (queue : List sstate) (hinv : queueInv W H bound queue)
    (hfuel : potential queue < fuel) :
    ∃ box : Box, searchLoop bound 0 fuel queue = some (Except.ok box) ∧
      validRect W H box.left box.top box.right box.bottom ∧
      f32eq box.score (quality box.left box.top box.right box.bottom) = true ∧
      ∀ l t r b : Int, validRect W H l t r b → f32le (quality l t r b) box.score = true := by
  induction fuel generalizing queue with
  | zero => omega
  | succ n ih =>
    have hne : queue ≠ [] := by
      obtain ⟨s, hs, _⟩ := hinv.2 0 0 0 0 ⟨⟨le_refl _, le_refl _, by omega⟩,
        ⟨le_refl _, le_refl _, by omega⟩⟩
      exact List.ne_nil_of_mem hs
    cases hpop : popBest queue with
    | none => exact absurd ((popBest_eq_none queue).mp hpop) hne
    | some p =>
      obtain ⟨s, rest⟩ := p
      cases hax : splitAxis s 0 with
      | none =>
        refine ⟨⟨s.low 0, s.low 1, s.low 2, s.low 3, s.upper⟩, ?_, ?_⟩
        · simp only [searchLoop, hpop, hax]
        · exact terminal_box_optimal W H quality bound hadm hex queue s rest hinv hpop hax
      | some i =>
        obtain ⟨hinv2, hpot⟩ := queueInv_step W H bound queue s rest i hinv hpop hax
        obtain ⟨box, hb, hprops⟩ := ih (legalChildren bound s i ++ rest) hinv2 (by omega)
        refine ⟨box, ?_, hprops⟩
        simp only [searchLoop, hpop, hax]
        exact hb

theorem fullspace_full_resolution (W H : Int) (hW : 1 ≤ W ∧ W ≤ 32767)
    (hH : 1 ≤ H ∧ H ≤ 32767) :
    (sstate.fullspace W H 0).low = arr4 0 0 0 0 ∧
    (sstate.fullspace W H 0).high = arr4 (W - 1) (H - 1) (W - 1) (H - 1) := by
  refine ⟨rfl, ?_⟩
  simp only [sstate.fullspace, shl, shr_zero, pow_zero, mul_one]
  rw [toShort_of_isShort _ ⟨by omega, by omega⟩, toShort_of_isShort _ ⟨by omega, by omega⟩]

theorem queueInv_root (W H : Int) (bound : (Fin 4 → Int) → (Fin 4 → Int) → Nat)
    (hW : 1 ≤ W ∧ W ≤ 32767) (hH : 1 ≤ H ∧ H ≤ 32767) :
    queueInv W H bound [{ sstate.fullspace W H 0 with
      upper := bound (sstate.fullspace W H 0).low (sstate.fullspace W H 0).high }] ∧
    potential [{ sstate.fullspace W H 0 with
      upper := bound (sstate.fullspace W H 0).low (sstate.fullspace W H 0).high }] <
      3 ^ (2 * (W + H)).toNat := by
  obtain ⟨el, eh⟩ := fullspace_full_resolution W H hW hH
  refine ⟨⟨?_, ?_⟩, ?_⟩
  · intro s hs
    rw [List.mem_singleton] at hs
    subst hs
    simp only [stateOk, sstate.islegal, el, eh, arr4]
    refine ⟨?_, le_refl _, le_refl _, by omega, by omega, ?_, trivial⟩
    · intro j
      fin_cases j <;> simp [arr4] <;> omega
    · simp only [Bool.and_eq_true, decide_eq_true_eq]
      omega
  · intro l t r b hv
    refine ⟨_, List.mem_singleton.mpr rfl, ?_⟩
    simp only [holdsRect, el, eh, arr4]
    unfold validRect at hv
    omega
  · simp only [potential, List.map, List.sum_cons, List.sum_nil, add_zero, sstate.extent,
      el, eh, arr4]
    apply Nat.pow_lt_pow_right (by norm_num)
    omega

theorem exBound_admissible : admissible 2 1 exQuality exBound := by
  intro lo hi l t r b _ hv
  unfold validRect at hv
  simp only [exQuality, exBound]
  split_ifs <;> decide

theorem exBound_monotone : monotoneBound exBound := by
  intro lo hi lo2 hi2 h
  have h0 := h 0
  have h1 := h 1
  have h2 := h 2
  have h3 := h 3
  simp only [exBound]
  split_ifs <;> first | decide | omega

theorem exBoundExact_admissible : admissible 2 1 exQuality exBoundExact := by
  intro lo hi l t r b hh hv
  unfold validRect at hv
  unfold holdsRect at hh
  simp only [exQuality, exBoundExact]
  split_ifs <;> first | decide | omega

theorem exBoundExact_exact : exactOnSingletons 2 1 exQuality exBoundExact := by
  intro lo hv
  unfold validRect at hv
  simp only [exQuality, exBoundExact]
  split_ifs <;> first | decide | omega

/-- C1 (as stated, refuted): on the 2 × 1 grid with the quality function `exQuality` and
the bound evaluator `exBound`, which is admissible and monotone, `pyramid_search` returns
the Box `(0, 0, 0, 0)` with score `10.0`; the rectangle `(0, 0, 1, 0)` has quality `5.0`,
larger than the quality `1.0` of the returned rectangle, and no rectangle has quality
`10.0`. -/
theorem pyramid_search_not_optimal_counterexample :
    admissible 2 1 exQuality exBound ∧ monotoneBound exBound ∧
    pyramid_search 2 1 exBound 0 729 = some (Except.ok ⟨0, 0, 0, 0, 0x41200000⟩) ∧
    validRect 2 1 0 0 1 0 ∧
    f32lt (exQuality 0 0 0 0) (exQuality 0 0 1 0) = true ∧
    ∀ l t r b : Int, f32eq 0x41200000 (exQuality l t r b) = false := by
  refine ⟨exBound_admissible, exBound_monotone, rfl, by unfold validRect; omega, by decide, ?_⟩
  intro l t r b
  simp only [exQuality]
  split_ifs <;> decide

/-- C1 (amended): for `1 ≤ W, H ≤ 32767`, `qbits = 0`, every quality function and every
bound evaluator that is admissible and exact on singletons, `pyramid_search` (run for at
least `3^(2(W+H))` iterations) returns a Box with `0 ≤ left ≤ right < W` and
`0 ≤ top ≤ bottom < H` whose score equals the quality of that rectangle and is at least
the quality of every candidate rectangle: the maximum a brute-force scan finds. -/
theorem pyramid_search_optimal_of_exact_bound (W H : Int)
    (quality : Int → Int → Int → Int → Nat)
    (bound : (Fin 4 → Int) → (Fin 4 → Int) → Nat) (fuel : Nat)
    (hW : 1 ≤ W ∧ W ≤ 32767) (hH : 1 ≤ H ∧ H ≤ 32767)
    (hadm : admissible W H quality bound) (hex : exactOnSingletons W H quality bound)
    (hfuel : 3 ^ (2 * (W + H)).toNat ≤ fuel) :
    ∃ box : Box, pyramid_search W H bound 0 fuel = some (Except.ok box) ∧
      (0 ≤ box.left ∧ box.left ≤ box.right ∧ box.right < W) ∧
      (0 ≤ box.top ∧ box.top ≤ box.bottom ∧ box.bottom < H) ∧
      f32eq box.score (quality box.left box.top box.right box.bottom) = true ∧
      ∀ l t r b : Int, validRect W H l t r b → f32le (quality l t r b) box.score = true := by
  obtain ⟨hinv, hpot⟩ := queueInv_root W H bound hW hH
  obtain ⟨box, hb, hv, hs, hmax⟩ := searchLoop_optimal W H quality bound hW.1 hH.1 hadm hex
    fuel _ hinv (lt_of_lt_of_le hpot hfuel)
  refine ⟨box, ?_, hv.1, hv.2, hs, hmax⟩
  unfold pyramid_search
  rw [if_neg (by omega), if_neg (by omega)]
  exact hb

theorem pyramid_search_optimal_of_exact_bound_witness :
    ((1 : Int) ≤ 2 ∧ (2 : Int) ≤ 32767) ∧ ((1 : Int) ≤ 1 ∧ (1 : Int) ≤ 32767) ∧
    admissible 2 1 exQuality exBoundExact ∧ exactOnSingletons 2 1 exQuality exBoundExact ∧
    3 ^ (2 * ((2 : Int) + 1)).toNat ≤ 729 ∧
    ∃ box : Box, pyramid_search 2 1 exBoundExact 0 729 = some (Except.ok box) ∧
      (0 ≤ box.left ∧ box.left ≤ box.right ∧ box.right < 2) ∧
      (0 ≤ box.top ∧ box.top ≤ box.bottom ∧ box.bottom < 1) ∧
      f32eq box.score (exQuality box.left box.top box.right box.bottom) = true ∧
      ∀ l t r b : Int, validRect 2 1 l t r b → f32le (exQuality l t r b) box.score = true :=
  ⟨by decide, by decide, exBoundExact_admissible, exBoundExact_exact, by decide,
    pyramid_search_optimal_of_exact_bound 2 1 exQuality exBoundExact 729 (by decide)
      (by decide) exBoundExact_admissible exBoundExact_exact (by decide)⟩

/-! ## The queue as a max-heap -/

theorem f32ge_iff (a b : Nat) (ha : f32isNaN a = false) (hb : f32isNaN b = false) :
    f32ge a b = true ↔ f32key b ≤ f32key a := by
  simp [f32ge, ha, hb]

theorem exists_unranked_below (heap : sstate_heap) (hne : heap ≠ [])
    (hn : ∀ x ∈ heap, f32isNaN x.upper = false) :
    ∃ t ∈ heap, ∀ x ∈ heap, sstate_comparisson t x = false := by
  cases hp : popBest heap with
  | none => exact absurd ((popBest_eq_none heap).mp hp) hne
  | some p =>
    obtain ⟨t, rest⟩ := p
    have hmem : t ∈ heap := (popBest_perm heap t rest hp).mem_iff.mpr (List.mem_cons_self _ _)
    refine ⟨t, hmem, fun x hx => ?_⟩
    have hle := popBest_best heap t rest hn hp x hx
    have hlt := f32lt_iff t.upper x.upper (hn t hmem) (hn x hx)
    simp only [sstate_comparisson, sstate.less]
    rw [← Bool.not_eq_true, hlt]
    omega

/-- C11: in a non-empty `sstate_heap` whose States have a non-NaN `upper`, a State that
`sstate_comparisson` ranks below no State of the heap has an `upper` that is `>=` the
`upper` of every State of the heap; and the heap holds such a State. -/
theorem heap_top_has_greatest_upper (heap : sstate_heap) (hne : heap ≠ [])
    (hn : ∀ x ∈ heap, f32isNaN x.upper = false) :
    (∀ t ∈ heap, (∀ x ∈ heap, sstate_comparisson t x = false) →
      ∀ x ∈ heap, f32ge t.upper x.upper = true) ∧
    ∃ t ∈ heap, ∀ x ∈ heap, sstate_comparisson t x = false := by
  refine ⟨?_, exists_unranked_below heap hne hn⟩
  intro t ht hrank x hx
  have hlt := f32lt_iff t.upper x.upper (hn t ht) (hn x hx)
  have hc := hrank x hx
  simp only [sstate_comparisson, sstate.less] at hc
  rw [f32ge_iff _ _ (hn t ht) (hn x hx)]
  by_contra hcon
  have : f32lt t.upper x.upper = true := hlt.mpr (by omega)
  rw [hc] at this
  exact Bool.false_ne_true this

theorem heap_top_has_greatest_upper_witness :
    ([sstate.mk 0x3F800000 (arr4 0 0 0 0) (arr4 1 1 1 1),
        sstate.mk 0x40A00000 (arr4 0 0 0 0) (arr4 0 0 0 0),
        sstate.mk 0xBF800000 (arr4 2 2 2 2) (arr4 3 3 3 3)] : sstate_heap) ≠ [] ∧
    (∀ x ∈ ([sstate.mk 0x3F800000 (arr4 0 0 0 0) (arr4 1 1 1 1),
        sstate.mk 0x40A00000 (arr4 0 0 0 0) (arr4 0 0 0 0),
        sstate.mk 0xBF800000 (arr4 2 2 2 2) (arr4 3 3 3 3)] : sstate_heap),
      f32isNaN x.upper = false) ∧
    (∀ x ∈ ([sstate.mk 0x3F800000 (arr4 0 0 0 0) (arr4 1 1 1 1),
        sstate.mk 0x40A00000 (arr4 0 0 0 0) (arr4 0 0 0 0),
        sstate.mk 0xBF800000 (arr4 2 2 2 2) (arr4 3 3 3 3)] : sstate_heap),
      sstate_comparisson (sstate.mk 0x40A00000 (arr4 0 0 0 0) (arr4 0 0 0 0)) x = false) ∧
    (∀ x ∈ ([sstate.mk 0x3F800000 (arr4 0 0 0 0) (arr4 1 1 1 1),
        sstate.mk 0x40A00000 (arr4 0 0 0 0) (arr4 0 0 0 0),
        sstate.mk 0xBF800000 (arr4 2 2 2 2) (arr4 3 3 3 3)] : sstate_heap),
      f32ge (sstate.mk 0x40A00000 (arr4 0 0 0 0) (arr4 0 0 0 0)).upper x.upper = true) :=
  ⟨by simp, by simp; decide, by simp; decide,
    (heap_top_has_greatest_upper
      [sstate.mk 0x3F800000 (arr4 0 0 0 0) (arr4 1 1 1 1),
        sstate.mk 0x40A00000 (arr4 0 0 0 0) (arr4 0 0 0 0),
        sstate.mk 0xBF800000 (arr4 2 2 2 2) (arr4 3 3 3 3)]
      (by simp) (by simp; decide)).1
      (sstate.mk 0x40A00000 (arr4 0 0 0 0) (arr4 0 0 0 0)) (by simp) (by simp; decide)⟩

/-! ## What `islegal` reads -/

/-- C12: `islegal()` returns true if and only if `low[0] ≤ high[2]` and
`low[1] ≤ high[3]`; its result is the same for every State with these four entries,
whatever `high[0]`, `high[1]`, `low[2]`, `low[3]` and `upper` are. -/
theorem islegal_iff_and_reads_four_entries (s : sstate) :
    (s.islegal = true ↔ s.low 0 ≤ s.high 2 ∧ s.low 1 ≤ s.high 3) ∧
    ∀ (u : Nat) (h0 h1 l2 l3 : Int),
      (sstate.mk u (arr4 (s.low 0) (s.low 1) l2 l3)
        (arr4 h0 h1 (s.high 2) (s.high 3))).islegal = s.islegal := by
  refine ⟨?_, fun _ _ _ _ _ => rfl⟩
  simp only [sstate.islegal, Bool.and_eq_true, decide_eq_true_eq]

/-! ## Terminal States at full resolution -/

/-- C16: for every sstate with `low[i] ≤ high[i]` for all `i`, if `islegal()` is true and
`maxindex(0)` returns `-1`, then `low[i] == high[i]` for every `i`, `low[0] ≤ low[2]` and
`low[1] ≤ low[3]`. -/
theorem legal_terminal_is_one_valid_rectangle (s : sstate) (h : ∀ i, s.low i ≤ s.high i)
    (hleg : s.islegal = true) (hterm : s.maxindex 0 = -1) :
    (∀ i, s.low i = s.high i) ∧ s.low 0 ≤ s.low 2 ∧ s.low 1 ≤ s.low 3 := by
  rw [maxindex_eq_neg_one_iff] at hterm
  have heq : ∀ i, s.low i = s.high i := by
    intro i
    have h1 := hterm i
    have h2 := h i
    simp only [sstate.interval_width, shr_zero] at h1
    omega
  simp only [sstate.islegal, Bool.and_eq_true, decide_eq_true_eq] at hleg
  have e2 := heq 2
  have e3 := heq 3
  exact ⟨heq, by omega, by omega⟩

theorem legal_terminal_is_one_valid_rectangle_witness :
    (∀ i, (sstate.mk 0 (arr4 3 4 5 6) (arr4 3 4 5 6)).low i ≤
      (sstate.mk 0 (arr4 3 4 5 6) (arr4 3 4 5 6)).high i) ∧
    (sstate.mk 0 (arr4 3 4 5 6) (arr4 3 4 5 6)).islegal = true ∧
    (sstate.mk 0 (arr4 3 4 5 6) (arr4 3 4 5 6)).maxindex 0 = -1 ∧
    ((∀ i, (sstate.mk 0 (arr4 3 4 5 6) (arr4 3 4 5 6)).low i =
        (sstate.mk 0 (arr4 3 4 5 6) (arr4 3 4 5 6)).high i) ∧
      (sstate.mk 0 (arr4 3 4 5 6) (arr4 3 4 5 6)).low 0 ≤
        (sstate.mk 0 (arr4 3 4 5 6) (arr4 3 4 5 6)).low 2 ∧
      (sstate.mk 0 (arr4 3 4 5 6) (arr4 3 4 5 6)).low 1 ≤
        (sstate.mk 0 (arr4 3 4 5 6) (arr4 3 4 5 6)).low 3) :=
  ⟨by decide, by decide, by decide,
    legal_terminal_is_one_valid_rectangle (sstate.mk 0 (arr4 3 4 5 6) (arr4 3 4 5 6))
      (by decide) (by decide) (by decide)⟩

/-! ## The chosen axis can be split -/

theorem lt_of_shr_lt (a b : Int) (n : Nat) (h : a >>> n < b >>> n) : a < b := by
  by_contra hcon
  have := shr_mono b a n (by omega)
  omega

theorem maxindex_width_pos (s : sstate) (qbits : Nat) (k : Fin 4)
    (hk : s.maxindex qbits = ((k : Nat) : Int)) : 0 < s.interval_width qbits k := by
  have hs := maxindex_spec s qbits
  fin_cases k <;> simp at hk ⊢ <;> omega

theorem maxindex_is_axis (s : sstate) (qbits : Nat) (hne : s.maxindex qbits ≠ -1) :
    ∃ k : Fin 4, s.maxindex qbits = ((k : Nat) : Int) := by
  have hs := maxindex_spec s qbits
  rcases hs with h | h | h | h | h
  · exact absurd h.1 hne
  · exact ⟨0, by rw [h.1]; rfl⟩
  · exact ⟨1, by rw [h.1]; rfl⟩
  · exact ⟨2, by rw [h.1]; rfl⟩
  · exact ⟨3, by rw [h.1]; rfl⟩

/-- C14: for every sstate and every `qbits`, if `maxindex(qbits)` returns `i` other than
`-1` then `i` is a coordinate with `low[i] < high[i]`, and the midpoint
`m = ⌊(low[i] + high[i]) / 2⌋` gives the two non-empty halves `[low[i], m]` and
`[m + 1, high[i]]`, each with fewer members than `[low[i], high[i]]`. -/
theorem chosen_axis_is_splittable (s : sstate) (qbits : Nat) (i : Int)
    (hi : s.maxindex qbits = i) (hne : i ≠ -1) :
    ∃ k : Fin 4, ((k : Nat) : Int) = i ∧ s.low k < s.high k ∧
      (s.low k ≤ (s.low k + s.high k) / 2 ∧ (s.low k + s.high k) / 2 + 1 ≤ s.high k) ∧
      ((s.low k + s.high k) / 2 - s.low k + 1 < s.high k - s.low k + 1 ∧
        s.high k - ((s.low k + s.high k) / 2 + 1) + 1 < s.high k - s.low k + 1) := by
  subst hi
  obtain ⟨k, hk⟩ := maxindex_is_axis s qbits hne
  have hw := maxindex_width_pos s qbits k hk
  have hlt : s.low k < s.high k := by
    apply lt_of_shr_lt _ _ qbits
    simp only [sstate.interval_width] at hw
    omega
  exact ⟨k, hk.symm, hlt, by omega, by omega⟩

theorem chosen_axis_is_splittable_witness :
    (sstate.mk 0 (arr4 0 0 0 0) (arr4 5 9 9 0)).maxindex 1 = 1 ∧ (1 : Int) ≠ -1 ∧
    ∃ k : Fin 4, ((k : Nat) : Int) = 1 ∧ arr4 0 0 0 0 k < arr4 5 9 9 0 k ∧
      (arr4 0 0 0 0 k ≤ (arr4 0 0 0 0 k + arr4 5 9 9 0 k) / 2 ∧
        (arr4 0 0 0 0 k + arr4 5 9 9 0 k) / 2 + 1 ≤ arr4 5 9 9 0 k) ∧
      ((arr4 0 0 0 0 k + arr4 5 9 9 0 k) / 2 - arr4 0 0 0 0 k + 1 <
          arr4 5 9 9 0 k - arr4 0 0 0 0 k + 1 ∧
        arr4 5 9 9 0 k - ((arr4 0 0 0 0 k + arr4 5 9 9 0 k) / 2 + 1) + 1 <
          arr4 5 9 9 0 k - arr4 0 0 0 0 k + 1) :=
  ⟨by decide, by decide,
    chosen_axis_is_splittable (sstate.mk 0 (arr4 0 0 0 0) (arr4 5 9 9 0)) 1 1
      (by decide) (by decide)⟩

/-! ## The root State -/

theorem fullspace_rounded (W H : Int) (qbits : Nat) (hW : 1 ≤ W ∧ W ≤ 32767)
    (hH : 1 ≤ H ∧ H ≤ 32767) :
    (sstate.fullspace W H qbits).low = arr4 0 0 0 0 ∧
    (sstate.fullspace W H qbits).high =
      arr4 ((W - 1) / 2 ^ qbits * 2 ^ qbits) ((H - 1) / 2 ^ qbits * 2 ^ qbits)
        ((W - 1) / 2 ^ qbits * 2 ^ qbits) ((H - 1) / 2 ^ qbits * 2 ^ qbits) ∧
    (0 ≤ (W - 1) / 2 ^ qbits * 2 ^ qbits ∧ (W - 1) / 2 ^ qbits * 2 ^ qbits ≤ W - 1) ∧
    (0 ≤ (H - 1) / 2 ^ qbits * 2 ^ qbits ∧ (H - 1) / 2 ^ qbits * 2 ^ qbits ≤ H - 1) := by
  obtain ⟨ew, lw, _⟩ := round_down_spec (W - 1) qbits
  obtain ⟨eh, lh, _⟩ := round_down_spec (H - 1) qbits
  have nw := round_down_nonneg (W - 1) qbits (by omega)
  have nh := round_down_nonneg (H - 1) qbits (by omega)
  refine ⟨rfl, ?_, ⟨nw, lw⟩, ⟨nh, lh⟩⟩
  simp only [sstate.fullspace, ew, eh]
  rw [toShort_of_isShort _ ⟨by omega, by omega⟩, toShort_of_isShort _ ⟨by omega, by omega⟩]

/-- C13: for `1 ≤ W, H ≤ 32767` and `0 ≤ qbits ≤ 30` the State built by
`sstate(W, H, qbits)` has `0 = low[i] ≤ high[i]` for every `i`, `high[0] ≤ W - 1`,
`high[1] ≤ H - 1`, and `islegal()` is true. -/
theorem fullspace_meets_invariants (W H : Int) (qbits : Nat) (hW : 1 ≤ W ∧ W ≤ 32767)
    (hH : 1 ≤ H ∧ H ≤ 32767) (_hq : qbits ≤ 30) :
    (∀ i, (sstate.fullspace W H qbits).low i = 0 ∧
      (sstate.fullspace W H qbits).low i ≤ (sstate.fullspace W H qbits).high i) ∧
    (sstate.fullspace W H qbits).high 0 ≤ W - 1 ∧
    (sstate.fullspace W H qbits).high 1 ≤ H - 1 ∧
    (sstate.fullspace W H qbits).islegal = true := by
  obtain ⟨el, eh, ⟨nw, lw⟩, ⟨nh, lh⟩⟩ := fullspace_rounded W H qbits hW hH
  refine ⟨?_, ?_, ?_, ?_⟩
  · intro i
    rw [el, eh]
    fin_cases i
    · exact ⟨rfl, nw⟩
    · exact ⟨rfl, nh⟩
    · exact ⟨rfl, nw⟩
    · exact ⟨rfl, nh⟩
  · rw [eh]
    exact lw
  · rw [eh]
    exact lh
  · simp only [sstate.islegal, el, eh, arr4, Bool.and_eq_true, decide_eq_true_eq]
    exact ⟨nw, nh⟩

theorem fullspace_meets_invariants_witness :
    ((1 : Int) ≤ 10 ∧ (10 : Int) ≤ 32767) ∧ ((1 : Int) ≤ 8 ∧ (8 : Int) ≤ 32767) ∧
    (2 : Nat) ≤ 30 ∧
    (∀ i, (sstate.fullspace 10 8 2).low i = 0 ∧
      (sstate.fullspace 10 8 2).low i ≤ (sstate.fullspace 10 8 2).high i) ∧
    (sstate.fullspace 10 8 2).high 0 ≤ 10 - 1 ∧
    (sstate.fullspace 10 8 2).high 1 ≤ 8 - 1 ∧
    (sstate.fullspace 10 8 2).islegal = true :=
  ⟨by decide, by decide, by decide,
    fullspace_meets_invariants 10 8 2 (by decide) (by decide) (by decide)⟩

theorem quotient_zero_iff (x : Int) (qbits : Nat) (hx : 0 ≤ x) :
    0 ≤ x / 2 ^ qbits ∧ (x / 2 ^ qbits = 0 ↔ x < 2 ^ qbits) := by
  have hp : (0 : Int) < 2 ^ qbits := by positivity
  have hn : 0 ≤ x / 2 ^ qbits := Int.ediv_nonneg hx (le_of_lt hp)
  refine ⟨hn, ?_, ?_⟩
  · intro h0
    have := (round_down_spec x qbits).2.2
    rw [h0] at this
    omega
  · intro hlt
    have : x / 2 ^ qbits < 1 := Int.ediv_lt_of_lt_mul hp (by omega)
    omega

theorem fullspace_interval_width (W H : Int) (qbits : Nat) (hW : 1 ≤ W ∧ W ≤ 32767)
    (hH : 1 ≤ H ∧ H ≤ 32767) :
    (sstate.fullspace W H qbits).interval_width qbits 0 = (W - 1) / 2 ^ qbits ∧
    (sstate.fullspace W H qbits).interval_width qbits 1 = (H - 1) / 2 ^ qbits ∧
    (sstate.fullspace W H qbits).interval_width qbits 2 = (W - 1) / 2 ^ qbits ∧
    (sstate.fullspace W H qbits).interval_width qbits 3 = (H - 1) / 2 ^ qbits := by
  obtain ⟨el, eh, _, _⟩ := fullspace_rounded W H qbits hW hH
  have hp : (0 : Int) < 2 ^ qbits := by positivity
  have key : ∀ a : Int, (a * 2 ^ qbits) >>> qbits - (0 : Int) >>> qbits = a := by
    intro a
    rw [Int.shiftRight_eq_div_pow, Int.shiftRight_eq_div_pow]
    push_cast
    rw [Int.mul_ediv_cancel _ (ne_of_gt hp)]
    simp
  simp only [sstate.interval_width, el, eh, arr4]
  exact ⟨key _, key _, key _, key _⟩

/-- C15: for `1 ≤ W, H ≤ 32767` and `0 ≤ qbits ≤ 30`, `sstate(W, H, qbits).maxindex(qbits)`
returns `-1` if and only if `W ≤ 2^qbits` and `H ≤ 2^qbits`; otherwise it returns `0` when
`⌊(W-1) / 2^qbits⌋ ≥ ⌊(H-1) / 2^qbits⌋` and `1` when it is smaller; it never returns `2`
or `3`. -/
theorem fullspace_maxindex (W H : Int) (qbits : Nat) (hW : 1 ≤ W ∧ W ≤ 32767)
    (hH : 1 ≤ H ∧ H ≤ 32767) (_hq : qbits ≤ 30) :
    ((sstate.fullspace W H qbits).maxindex qbits = -1 ↔ W ≤ 2 ^ qbits ∧ H ≤ 2 ^ qbits) ∧
    (¬ (W ≤ 2 ^ qbits ∧ H ≤ 2 ^ qbits) →
      ((H - 1) / 2 ^ qbits ≤ (W - 1) / 2 ^ qbits →
        (sstate.fullspace W H qbits).maxindex qbits = 0) ∧
      ((W - 1) / 2 ^ qbits < (H - 1) / 2 ^ qbits →
        (sstate.fullspace W H qbits).maxindex qbits = 1)) ∧
    (sstate.fullspace W H qbits).maxindex qbits ≠ 2 ∧
    (sstate.fullspace W H qbits).maxindex qbits ≠ 3 := by
  obtain ⟨w0, w1, w2, w3⟩ := fullspace_interval_width W H qbits hW hH
  obtain ⟨na, za⟩ := quotient_zero_iff (W - 1) qbits (by omega)
  obtain ⟨nb, zb⟩ := quotient_zero_iff (H - 1) qbits (by omega)
  have hs := maxindex_spec (sstate.fullspace W H qbits) qbits
  rw [w0, w1, w2, w3] at hs
  have hWq : W ≤ 2 ^ qbits ↔ (W - 1) / 2 ^ qbits = 0 := by rw [za]; omega
  have hHq : H ≤ 2 ^ qbits ↔ (H - 1) / 2 ^ qbits = 0 := by rw [zb]; omega
  rw [hWq, hHq]
  generalize (W - 1) / 2 ^ qbits = a at *
  generalize (H - 1) / 2 ^ qbits = b at *
  omega

theorem fullspace_maxindex_witness :
    ((1 : Int) ≤ 10 ∧ (10 : Int) ≤ 32767) ∧ ((1 : Int) ≤ 8 ∧ (8 : Int) ≤ 32767) ∧
    (1 : Nat) ≤ 30 ∧
    ((sstate.fullspace 10 8 1).maxindex 1 = -1 ↔ (10 : Int) ≤ 2 ^ 1 ∧ (8 : Int) ≤ 2 ^ 1) ∧
    (¬ ((10 : Int) ≤ 2 ^ 1 ∧ (8 : Int) ≤ 2 ^ 1) →
      (((8 : Int) - 1) / 2 ^ 1 ≤ (10 - 1) / 2 ^ 1 →
        (sstate.fullspace 10 8 1).maxindex 1 = 0) ∧
      (((10 : Int) - 1) / 2 ^ 1 < (8 - 1) / 2 ^ 1 →
        (sstate.fullspace 10 8 1).maxindex 1 = 1)) ∧
    (sstate.fullspace 10 8 1).maxindex 1 ≠ 2 ∧
    (sstate.fullspace 10 8 1).maxindex 1 ≠ 3 :=
  ⟨by decide, by decide, by decide,
    fullspace_maxindex 10 8 1 (by decide) (by decide) (by decide)⟩
